import Mathlib

set_option linter.unusedSectionVars false

/-!
Verification of the `JitHashTable` chained-bucket hash table
(`src/coreclr/jit/jithashtable.h`).

The C++ class template `JitHashTable<Key, KeyFuncs, Value, Allocator, Behavior>`
is shallowly embedded as a Lean structure `Table α β` whose bucket array
`m_table` is a list of bucket chains (a singly linked node chain is a list of
key/value pairs, head first).  Machine `unsigned` (32-bit) arithmetic is
modelled over `Nat` with explicit `% 2 ^ 32` at every operation where the C++
could wrap.  Operations that can reach the fatal `Behavior::NoMemory()` hook
(which never returns) or perform an out-of-bounds bucket-array access return
`Option`, with `none` standing for those non-returning/undefined outcomes.
`KeyFuncs` is modelled by a hash function `hash : α → Nat` (returning an
`unsigned`, i.e. a value `< 2 ^ 32`) together with decidable equality on `α`,
matching `JitKeyFuncsDefEquals`.  Debug-only `assert`s are compiled out in
release builds; functions therefore follow the release control flow, and the
one assert that a claim is about (`assert(kind == Overwrite)` in `Set`) is
recorded explicitly in the result (`SetResult.assertOk`).
-/

/-- Mirrors `class JitPrimeInfo`: a prime together with the magic number and
shift amount used to divide by the prime without a divide instruction. -/
structure JitPrimeInfo where
  prime : Nat
  magic : Nat
  shift : Nat
deriving DecidableEq, Repr

/-- Mirrors `JitPrimeInfo::magicNumberDivide`: compute `numerator / prime` as
`(numerator * magic) >> (32 + shift)` using the widened multiply.  For a
32-bit `numerator` and a 32-bit `magic` the `uint64_t` product cannot wrap,
so the widened product is modelled exactly. -/
def JitPrimeInfo.magicNumberDivide (info : JitPrimeInfo) (numerator : Nat) : Nat :=
  (numerator * info.magic) >>> (32 + info.shift)

/-- Mirrors `JitPrimeInfo::magicNumberRem`: `numerator - div * prime` in
`unsigned` arithmetic (wrapping modulo `2 ^ 32`).  The debug-only
`assert(result == numerator % prime)` is compiled out in release builds. -/
def JitPrimeInfo.magicNumberRem (info : JitPrimeInfo) (numerator : Nat) : Nat :=
  (numerator + 2 ^ 32 - info.magicNumberDivide numerator * info.prime % 2 ^ 32) % 2 ^ 32

/-- Modelled from the spec: the static table `jitPrimeInfo[27]` is only
declared `extern` in the provided source; its constant values live in a
translation unit that is not part of `src/`.  Per the spec it is "a fixed
ascending list of prime numbers, each paired with a precomputed magic
multiplier and shift enabling remainder-by-prime without a hardware divide",
each prime "roughly twice as big as the next", and the magic computation
"must be numerically exact for every representable 32-bit input".  The spec's
growth scenario (minimum allocation 7 giving capacity threshold 5) forces the
smallest stored prime that is `≥ 7` to be `7` itself; `7` famously has no
exact 32-bit magic number, so its entry carries a 33-bit magic constant and
relies on the widened multiply being modelled exactly, as the spec's
exactness requirement dictates.  All other entries have 32-bit magics. -/
def jitPrimeInfo : List JitPrimeInfo :=
  [⟨7, 4908534053, 3⟩,
   ⟨13, 1321528399, 2⟩,
   ⟨29, 2369637129, 4⟩,
   ⟨47, 2924233053, 5⟩,
   ⟨89, 3088515809, 6⟩,
   ⟨211, 2605477791, 7⟩,
   ⟨409, 2688292489, 8⟩,
   ⟨829, 2652621539, 9⟩,
   ⟨1667, 2638300247, 10⟩,
   ⟨3347, 1314026445, 10⟩,
   ⟨6659, 2641866053, 12⟩,
   ⟨13313, 1321429133, 12⟩,
   ⟨26627, 2642759011, 14⟩,
   ⟨53239, 660875901, 13⟩,
   ⟨106501, 330366589, 13⟩,
   ⟨212987, 2643118845, 17⟩,
   ⟨425987, 330379773, 15⟩,
   ⟨851971, 2643047491, 19⟩,
   ⟨1703941, 1321524521, 19⟩,
   ⟨3407881, 1321524909, 20⟩,
   ⟨6815741, 2643057961, 22⟩,
   ⟨13631489, 660764151, 21⟩,
   ⟨27262997, 1321527381, 23⟩,
   ⟨54525979, 2643055489, 25⟩,
   ⟨109051903, 1321528411, 25⟩,
   ⟨218103799, 2643056907, 27⟩,
   ⟨436207613, 165191051, 24⟩]

/-- Correctness condition for a magic-division triple (Hacker's Delight
10-9 / Granlund–Montgomery): `magic * prime` lies in
`[2 ^ (32+shift), 2 ^ (32+shift) + 2 ^ shift]`.  This makes the
multiply-and-shift quotient exact for every 32-bit numerator. -/
def MagicOK (i : JitPrimeInfo) : Prop :=
  0 < i.prime ∧
  2 ^ (32 + i.shift) ≤ i.magic * i.prime ∧
  i.magic * i.prime ≤ 2 ^ (32 + i.shift) + 2 ^ i.shift

instance (i : JitPrimeInfo) : Decidable (MagicOK i) := by
  unfold MagicOK; infer_instance

theorem jitPrimeInfo_magicOK : ∀ i ∈ jitPrimeInfo, MagicOK i := by decide

theorem jitPrimeInfo_prime_pos : ∀ i ∈ jitPrimeInfo, 0 < i.prime := by decide

/-- Exactness of the magic quotient: for every 32-bit numerator the
multiply-and-shift computes the true quotient. -/
theorem magicNumberDivide_eq (i : JitPrimeInfo) (hM : MagicOK i)
    (x : Nat) (hx : x < 2 ^ 32) :
    i.magicNumberDivide x = x / i.prime := by
  obtain ⟨hp, hlo, hhi⟩ := hM
  set p := i.prime with hpdef
  set M := i.magic
  set s := i.shift
  have hklt : x * M < (x / p + 1) * 2 ^ (32 + s) := by
    have hxe : x * (M * p - 2 ^ (32 + s)) < 2 ^ (32 + s) := by
      calc x * (M * p - 2 ^ (32 + s)) ≤ x * 2 ^ s := by
            exact Nat.mul_le_mul_left x (by omega)
        _ < 2 ^ 32 * 2 ^ s := by
            exact (Nat.mul_lt_mul_right (Nat.pos_pow_of_pos s (by norm_num))).mpr hx
        _ = 2 ^ (32 + s) := by rw [← pow_add]
    have hmain : p * (x * M) < p * ((x / p + 1) * 2 ^ (32 + s)) := by
      have h1 : p * (x * M) = x * 2 ^ (32 + s) + x * (M * p - 2 ^ (32 + s)) := by
        have : M * p = 2 ^ (32 + s) + (M * p - 2 ^ (32 + s)) := by omega
        calc p * (x * M) = x * (M * p) := by ring
          _ = x * (2 ^ (32 + s) + (M * p - 2 ^ (32 + s))) := by rw [← this]
          _ = x * 2 ^ (32 + s) + x * (M * p - 2 ^ (32 + s)) := by ring
      have h2 : x * 2 ^ (32 + s) + x * (M * p - 2 ^ (32 + s))
          < (x + 1) * 2 ^ (32 + s) := by
        have := hxe; nlinarith [Nat.pos_pow_of_pos (32 + s) (show 0 < 2 by norm_num)]
      have h3 : x + 1 ≤ p * (x / p + 1) := by
        have hdm : p * (x / p) + x % p = x := Nat.div_add_mod x p
        have hml : x % p < p := Nat.mod_lt x hp
        have hexp : p * (x / p + 1) = p * (x / p) + p := by ring
        omega
      calc p * (x * M) = x * 2 ^ (32 + s) + x * (M * p - 2 ^ (32 + s)) := h1
        _ < (x + 1) * 2 ^ (32 + s) := h2
        _ ≤ p * (x / p + 1) * 2 ^ (32 + s) := by
            exact Nat.mul_le_mul_right _ h3
        _ = p * ((x / p + 1) * 2 ^ (32 + s)) := by ring
    exact Nat.lt_of_mul_lt_mul_left hmain
  have hkge : x / p * 2 ^ (32 + s) ≤ x * M := by
    calc x / p * 2 ^ (32 + s) ≤ x / p * (M * p) := Nat.mul_le_mul_left _ hlo
      _ = M * (p * (x / p)) := by ring
      _ ≤ M * x := by
          have hdm : p * (x / p) + x % p = x := Nat.div_add_mod x p
          exact Nat.mul_le_mul_left M (by omega)
      _ = x * M := Nat.mul_comm M x
  have : x * M / 2 ^ (32 + s) = x / p :=
    Nat.div_eq_of_lt_le hkge hklt
  simpa [JitPrimeInfo.magicNumberDivide, Nat.shiftRight_eq_div_pow] using this

/-- Exactness of the magic remainder: for every 32-bit numerator,
`magicNumberRem` computes the true remainder (this is what the debug
`assert(result == numerator % prime)` in the source checks). -/
theorem magicNumberRem_eq (i : JitPrimeInfo) (hM : MagicOK i)
    (x : Nat) (hx : x < 2 ^ 32) :
    i.magicNumberRem x = x % i.prime := by
  have hdiv := magicNumberDivide_eq i hM x hx
  have hp : 0 < i.prime := hM.1
  unfold JitPrimeInfo.magicNumberRem
  rw [hdiv]
  have hle : x / i.prime * i.prime ≤ x := Nat.div_mul_le_self x i.prime
  have hlt : x / i.prime * i.prime < 2 ^ 32 := lt_of_le_of_lt hle hx
  rw [Nat.mod_eq_of_lt hlt]
  have hmod : x % i.prime < 2 ^ 32 :=
    lt_of_le_of_lt (Nat.mod_le x i.prime) hx
  have hsplit : x / i.prime * i.prime + x % i.prime = x := Nat.div_add_mod' x i.prime
  have : x + 2 ^ 32 - x / i.prime * i.prime = x % i.prime + 2 ^ 32 := by omega
  rw [this, Nat.add_mod_right, Nat.mod_eq_of_lt hmod]

theorem magicNumberRem_lt (i : JitPrimeInfo) (hM : MagicOK i)
    (x : Nat) (hx : x < 2 ^ 32) :
    i.magicNumberRem x < i.prime := by
  rw [magicNumberRem_eq i hM x hx]
  exact Nat.mod_lt x hM.1

/-- The `Behavior` tuning constants of `class JitHashTableBehavior`. -/
def s_growth_factor_numerator : Nat := 3

def s_growth_factor_denominator : Nat := 2

def s_density_factor_numerator : Nat := 3

def s_density_factor_denominator : Nat := 4

def s_minimum_allocation : Nat := 7

namespace JitHashTable

variable {α β : Type} [DecidableEq α]

/-- The instance state of `JitHashTable`: the bucket array `m_table` (a null
`m_table` is the empty list, and a node chain is a list of key/value pairs,
head first), `m_tableSizeInfo`, `m_tableCount` and `m_tableMax`.  The
allocator handle carries no observable state and is omitted. -/
structure Table (α β : Type) where
  table : List (List (α × β))
  tableSizeInfo : JitPrimeInfo
  tableCount : Nat
  tableMax : Nat
deriving DecidableEq, Repr

/-- The freshly constructed table (constructor `JitHashTable(Allocator)`):
empty, with no bucket array allocated. -/
def emptyTable : Table α β := ⟨[], ⟨0, 0, 0⟩, 0, 0⟩

/-- Mirrors `GetCount`: the number of keys currently stored. -/
def GetCount (t : Table α β) : Nat := t.tableCount

/-- Mirrors `GetIndexForKey`: reduce the key's hash code through the current
prime-size descriptor. -/
def GetIndexForKey (info : JitPrimeInfo) (hash : α → Nat) (k : α) : Nat :=
  info.magicNumberRem (hash k)

/-- The chain walk shared by `FindNode`, `Set`, `Emplace` and
`LookupPointerOrAdd`: advance along `m_next` until a node whose key
`KeyFuncs::Equals` the probe key is found. -/
def findLoop (k : α) : List (α × β) → Option (α × β)
  | [] => none
  | n :: rest => if k = n.1 then some n else findLoop k rest

/-- Mirrors `FindNode`: `nullptr` when the table was never allocated,
otherwise the chain walk of the key's bucket. -/
def FindNode (hash : α → Nat) (t : Table α β) (k : α) : Option (α × β) :=
  if t.tableSizeInfo.prime = 0 then none
  else findLoop k (t.table.getD (GetIndexForKey t.tableSizeInfo hash k) [])

/-- Mirrors `Lookup`.  `pVal` models the caller's out-pointer: `none` is a
null `pVal`, `some w` a cell currently holding `w`.  The pair returned is the
`bool` result together with the cell's contents after the call (the source
writes `*pVal` only when the key is found and `pVal` is non-null). -/
def Lookup (hash : α → Nat) (t : Table α β) (k : α) (pVal : Option β) :
    Bool × Option β :=
  match FindNode hash t k with
  | some pN =>
    (true, match pVal with
           | some _ => some pN.2
           | none => none)
  | none => (false, pVal)

/-- Mirrors `LookupPointer`, modelled as the value the returned pointer
aims at (`none` for `nullptr`). -/
def LookupPointer (hash : α → Nat) (t : Table α β) (k : α) : Option β :=
  match FindNode hash t k with
  | some pN => some pN.2
  | none => none

/-- Mirrors `NextPrime`: scan the static ascending table for the first entry
whose prime is `≥ number`; running off the end is the fatal
`Behavior::NoMemory()`, modelled as `none`. -/
def NextPrime (number : Nat) : Option JitPrimeInfo :=
  jitPrimeInfo.find? (fun info => decide (number ≤ info.prime))

/-- The body of `Reallocate`'s migration loop: re-chain one node onto the
head of its bucket in the new array (node storage is reused). -/
def rehashInsert (hash : α → Nat) (newPrime : JitPrimeInfo)
    (newTable : List (List (α × β))) (pN : α × β) : List (List (α × β)) :=
  let newIndex := newPrime.magicNumberRem (hash pN.1)
  newTable.set newIndex (pN :: newTable.getD newIndex [])

/-- Mirrors `Reallocate`: round the requested size up to the next stored
prime (fatal `NoMemory` if none is large enough), allocate a null-initialized
bucket array of that size, migrate every node of every old bucket into it,
and install the new array, descriptor and `m_tableMax`.  The debug-only
density assert at entry is compiled out in release builds. -/
def Reallocate (hash : α → Nat) (t : Table α β) (newTableSize : Nat) :
    Option (Table α β) :=
  match NextPrime newTableSize with
  | none => none
  | some newPrime =>
    let newTable :=
      t.table.foldl (fun acc bucket => bucket.foldl (rehashInsert hash newPrime) acc)
        (List.replicate newPrime.prime ([] : List (α × β)))
    some { table := newTable,
           tableSizeInfo := newPrime,
           tableCount := t.tableCount,
           tableMax := newPrime.prime * s_density_factor_numerator % 2 ^ 32 /
                       s_density_factor_denominator }

/-- The new-size computation at the head of `Grow`, in `unsigned` (wrapping)
arithmetic:
`m_tableCount * s_growth_factor_numerator / s_growth_factor_denominator *
 s_density_factor_denominator / s_density_factor_numerator`. -/
def growNewSize (tableCount : Nat) : Nat :=
  tableCount * s_growth_factor_numerator % 2 ^ 32 / s_growth_factor_denominator *
    s_density_factor_denominator % 2 ^ 32 / s_density_factor_numerator

/-- Mirrors `Grow`: compute the requested size from the current population,
clamp it to the minimum allocation, treat wrap-around below the current count
as fatal `NoMemory`, and `Reallocate`. -/
def Grow (hash : α → Nat) (t : Table α β) : Option (Table α β) :=
  let newSize := growNewSize t.tableCount
  let newSize2 := if newSize < s_minimum_allocation then s_minimum_allocation else newSize
  if newSize2 < t.tableCount then none
  else Reallocate hash t newSize2

/-- Mirrors `CheckGrowth`: grow exactly when the population has reached the
capacity threshold. -/
def CheckGrowth (hash : α → Nat) (t : Table α β) : Option (Table α β) :=
  if t.tableCount = t.tableMax then Grow hash t else some t

/-- Mirrors `enum SetKind`. -/
inductive SetKind where
  | noOverwrite
  | overwrite
deriving DecidableEq, Repr

/-- In-place update of the found node's `m_val` (`pN->m_val = v`); the stored
key is left untouched. -/
def setLoop (k : α) (v : β) : List (α × β) → List (α × β)
  | [] => []
  | n :: rest => if k = n.1 then (n.1, v) :: rest else n :: setLoop k v rest

/-- Result of `Set`: the table afterwards, the `bool` return value, and
`assertOk`, which is `false` exactly when the debug-only
`assert(kind == Overwrite)` fires (key already present with overwrite
disallowed).  `table`/`overwritten` describe the release-build behaviour,
where the assert is compiled out and the value is overwritten regardless. -/
structure SetResult (α β : Type) where
  table : Table α β
  overwritten : Bool
  assertOk : Bool
deriving DecidableEq, Repr

/-- Mirrors `Set`: growth check first, then either overwrite the existing
node's value (returning `true`) or push a new node at the head of the bucket
chain (returning `false`).  `none` is the non-returning fatal path reached
through `CheckGrowth`. -/
def Set (hash : α → Nat) (t₀ : Table α β) (k : α) (v : β) (kind : SetKind) :
    Option (SetResult α β) :=
  match CheckGrowth hash t₀ with
  | none => none
  | some t =>
    let index := GetIndexForKey t.tableSizeInfo hash k
    let bucket := t.table.getD index []
    match findLoop k bucket with
    | some _ =>
      some ⟨{ t with table := t.table.set index (setLoop k v bucket) }, true,
            decide (kind = SetKind.overwrite)⟩
    | none =>
      some ⟨{ t with
              table := t.table.set index ((k, v) :: bucket)
              tableCount := t.tableCount + 1 }, false, true⟩

/-- Mirrors `LookupPointerOrAdd`: growth check first; if the key is present
return (a pointer to) the existing value untouched, otherwise insert a new
node carrying `defaultValue` at the chain head.  The returned `β` is the
value the returned pointer aims at. -/
def LookupPointerOrAdd (hash : α → Nat) (t₀ : Table α β) (k : α)
    (defaultValue : β) : Option (Table α β × β) :=
  match CheckGrowth hash t₀ with
  | none => none
  | some t =>
    let index := GetIndexForKey t.tableSizeInfo hash k
    let bucket := t.table.getD index []
    match findLoop k bucket with
    | some n => some (t, n.2)
    | none =>
      some ({ t with
              table := t.table.set index ((k, defaultValue) :: bucket)
              tableCount := t.tableCount + 1 }, defaultValue)

/-- Mirrors `Emplace`: identical control flow to `LookupPointerOrAdd`, with
the value constructed in place from the supplied arguments (modelled as the
constructed value `v`) only when the key is absent. -/
def Emplace (hash : α → Nat) (t₀ : Table α β) (k : α) (v : β) :
    Option (Table α β × β) :=
  match CheckGrowth hash t₀ with
  | none => none
  | some t =>
    let index := GetIndexForKey t.tableSizeInfo hash k
    let bucket := t.table.getD index []
    match findLoop k bucket with
    | some n => some (t, n.2)
    | none =>
      some ({ t with
              table := t.table.set index ((k, v) :: bucket)
              tableCount := t.tableCount + 1 }, v)

/-- The unlink walk of `Remove`: `some` of the chain with the first matching
node spliced out, or `none` when no node matches. -/
def removeLoop (k : α) : List (α × β) → Option (List (α × β))
  | [] => none
  | n :: rest =>
    if k = n.1 then some rest
    else match removeLoop k rest with
         | some rest2 => some (n :: rest2)
         | none => none

/-- Mirrors `Remove`.  Unlike `FindNode`, `Remove` reads
`m_table[GetIndexForKey(k)]` with no `prime == 0` guard and no preceding
`CheckGrowth`, so on a never-allocated table it dereferences the null bucket
array; that out-of-bounds read is modelled by the `Option` bucket access
(`none` = undefined behaviour).  Otherwise: splice out and free the matching
node and return `true`, or return `false` with the table untouched. -/
def Remove (hash : α → Nat) (t : Table α β) (k : α) :
    Option (Table α β × Bool) :=
  let index := GetIndexForKey t.tableSizeInfo hash k
  match t.table[index]? with
  | none => none
  | some bucket =>
    match removeLoop k bucket with
    | some bucket2 =>
      some ({ t with
              table := t.table.set index bucket2
              tableCount := t.tableCount - 1 }, true)
    | none => some (t, false)

/-- Mirrors `RemoveAll`: free every node and the bucket array and reset the
table to its empty, unallocated initial state. -/
def RemoveAll (_t : Table α β) : Table α β :=
  { table := [], tableSizeInfo := ⟨0, 0, 0⟩, tableCount := 0, tableMax := 0 }

end JitHashTable

namespace JitHashTable

variable {α β : Type} [DecidableEq α]

/-- One client call on the table: the mutating public operations.
(`Lookup`/`LookupPointer` are `const` and do not change the state.)
`Emplace`'s constructor arguments are modelled by the constructed value. -/
inductive Op (α β : Type) where
  | set (k : α) (v : β) (kind : SetKind)
  | lookupPointerOrAdd (k : α) (v : β)
  | emplace (k : α) (v : β)
  | remove (k : α)
  | removeAll
  | reallocate (n : Nat)
deriving DecidableEq, Repr

/-- Execute one operation; `none` is a non-returning outcome (fatal
`NoMemory`, or `Remove`'s unguarded null bucket-array access). -/
def step (hash : α → Nat) (t : Table α β) : Op α β → Option (Table α β)
  | .set k v kind => (Set hash t k v kind).map SetResult.table
  | .lookupPointerOrAdd k v => (LookupPointerOrAdd hash t k v).map Prod.fst
  | .emplace k v => (Emplace hash t k v).map Prod.fst
  | .remove k => (Remove hash t k).map Prod.fst
  | .removeAll => some (RemoveAll t)
  | .reallocate n => Reallocate hash t n

/-- Execute a sequence of operations from a starting state. -/
def exec (hash : α → Nat) (t : Table α β) : List (Op α β) → Option (Table α β)
  | [] => some t
  | op :: ops =>
    match step hash t op with
    | some t2 => exec hash t2 ops
    | none => none

/-- The abstract finite map the table implements: the value `Lookup` would
copy out for each key. -/
def absFind (hash : α → Nat) (t : Table α β) (k : α) : Option β :=
  (FindNode hash t k).map Prod.snd

/-- The intended effect of one operation on the abstract map. -/
def opApply (m : α → Option β) : Op α β → (α → Option β)
  | .set k v _ => fun x => if x = k then some v else m x
  | .lookupPointerOrAdd k d => fun x => if x = k then some ((m k).getD d) else m x
  | .emplace k d => fun x => if x = k then some ((m k).getD d) else m x
  | .remove k => fun x => if x = k then none else m x
  | .removeAll => fun _ => none
  | .reallocate _ => m

/-- The intended effect of a sequence of operations on the abstract map. -/
def specFold (m : α → Option β) : List (Op α β) → (α → Option β)
  | [] => m
  | op :: ops => specFold (opApply m op) ops

/-- The abstract map an operation sequence run from an empty table should
produce: each key is mapped to the value most recently established for it
(`Set` always establishes; `LookupPointerOrAdd`/`Emplace` establish only when
the key was absent), erased by `remove`/`removeAll`. -/
def specMapOf (ops : List (Op α β)) : α → Option β :=
  specFold (fun _ => none) ops

/-- The hash strategy returns a C++ `unsigned`, i.e. a 32-bit value. -/
def HashOK (hash : α → Nat) : Prop :=
  ∀ k, hash k < 2 ^ 32

/-- Every node hangs in exactly the bucket its key's hash currently
indexes. -/
def bucketsOK (hash : α → Nat) (info : JitPrimeInfo) (tbl : List (List (α × β))) : Prop :=
  ∀ i, ∀ n ∈ tbl.getD i [], GetIndexForKey info hash n.1 = i

/-- The representation invariant of a reachable table: the bucket-array
length matches the current prime descriptor, the descriptor is either the
default unallocated one or an entry of the static prime table, every node
hangs in the bucket its key hashes to, stored keys are pairwise distinct,
`m_tableCount` counts the nodes, and `m_tableMax` is the density threshold
for the current size. -/
def WF (hash : α → Nat) (t : Table α β) : Prop :=
  t.table.length = t.tableSizeInfo.prime ∧
  (t.tableSizeInfo = ⟨0, 0, 0⟩ ∨ t.tableSizeInfo ∈ jitPrimeInfo) ∧
  bucketsOK hash t.tableSizeInfo t.table ∧
  (t.table.flatten.map Prod.fst).Nodup ∧
  t.tableCount = t.table.flatten.length ∧
  t.tableMax = t.tableSizeInfo.prime * s_density_factor_numerator % 2 ^ 32 /
               s_density_factor_denominator

theorem wf_emptyTable (hash : α → Nat) : WF hash (emptyTable : Table α β) := by
  refine ⟨rfl, Or.inl rfl, ?_, by simp [emptyTable], rfl,
    by simp [emptyTable, s_density_factor_numerator, s_density_factor_denominator]⟩
  intro i n hn
  simp [emptyTable, List.getD] at hn

section ListLemmas

variable {γ : Type}

theorem getD_set_self (tbl : List (List γ)) (i : Nat) (b : List γ)
    (h : i < tbl.length) : (tbl.set i b).getD i [] = b := by
  simp [List.getD_eq_getElem?_getD, List.getElem?_set, h]

theorem getD_set_ne (tbl : List (List γ)) (i j : Nat) (b : List γ)
    (h : i ≠ j) : (tbl.set i b).getD j [] = tbl.getD j [] := by
  simp [List.getD_eq_getElem?_getD, List.getElem?_set, h]

theorem flatten_split (tbl : List (List γ)) (i : Nat) (h : i < tbl.length) :
    tbl.flatten = (tbl.take i).flatten ++ tbl.getD i [] ++ (tbl.drop (i + 1)).flatten := by
  conv_lhs => rw [← List.take_append_drop i tbl]
  rw [List.drop_eq_getElem_cons h, List.flatten_append, List.flatten_cons]
  rw [List.getD_eq_getElem?_getD, List.getElem?_eq_getElem h]
  simp [List.append_assoc]

theorem flatten_set_eq (tbl : List (List γ)) (i : Nat) (b : List γ)
    (h : i < tbl.length) :
    (tbl.set i b).flatten = (tbl.take i).flatten ++ b ++ (tbl.drop (i + 1)).flatten := by
  rw [List.set_eq_take_append_cons_drop, if_pos h, List.flatten_append, List.flatten_cons]
  simp [List.append_assoc]

end ListLemmas

section BucketLemmas

theorem findLoop_eq_none (k : α) (b : List (α × β)) :
    findLoop k b = none ↔ ∀ n ∈ b, k ≠ n.1 := by
  induction b with
  | nil => simp [findLoop]
  | cons n rest ih =>
    by_cases hk : k = n.1
    · simp [findLoop, hk]
    · simp [findLoop, hk, ih]

theorem findLoop_some {k : α} {b : List (α × β)} {n : α × β}
    (h : findLoop k b = some n) : n ∈ b ∧ n.1 = k := by
  induction b with
  | nil => simp [findLoop] at h
  | cons m rest ih =>
    by_cases hk : k = m.1
    · simp [findLoop, hk] at h
      subst h
      exact ⟨List.mem_cons_self m rest, hk.symm⟩
    · simp [findLoop, hk] at h
      obtain ⟨hmem, hkey⟩ := ih h
      exact ⟨List.mem_cons_of_mem m hmem, hkey⟩

theorem findLoop_of_mem {k : α} {v : β} {b : List (α × β)}
    (hnd : (b.map Prod.fst).Nodup) (hm : (k, v) ∈ b) :
    findLoop k b = some (k, v) := by
  induction b with
  | nil => simp at hm
  | cons m rest ih =>
    rw [List.map_cons, List.nodup_cons] at hnd
    rcases List.mem_cons.mp hm with heq | hmem
    · subst heq
      simp [findLoop]
    · by_cases hk : k = m.1
      · exfalso
        exact hnd.1 (hk ▸ List.mem_map.mpr ⟨(k, v), hmem, rfl⟩)
      · simp [findLoop, hk]
        exact ih hnd.2 hmem

theorem setLoop_map_fst (k : α) (v : β) (b : List (α × β)) :
    (setLoop k v b).map Prod.fst = b.map Prod.fst := by
  induction b with
  | nil => rfl
  | cons m rest ih =>
    by_cases hk : k = m.1
    · simp [setLoop, hk]
    · simp [setLoop, hk, ih]

theorem setLoop_of_none {k : α} {v : β} {b : List (α × β)}
    (h : findLoop k b = none) : setLoop k v b = b := by
  induction b with
  | nil => rfl
  | cons m rest ih =>
    by_cases hk : k = m.1
    · simp [findLoop, hk] at h
    · simp [findLoop, hk] at h
      simp [setLoop, hk, ih h]

theorem findLoop_setLoop_self {k : α} {v : β} {b : List (α × β)} {n : α × β}
    (h : findLoop k b = some n) :
    findLoop k (setLoop k v b) = some (n.1, v) := by
  induction b with
  | nil => simp [findLoop] at h
  | cons m rest ih =>
    by_cases hk : k = m.1
    · simp [findLoop, hk] at h
      subst h
      simp [setLoop, findLoop, hk]
    · simp [findLoop, setLoop, hk] at h ⊢
      exact ih h

theorem findLoop_setLoop_other {k k' : α} {v : β} (b : List (α × β))
    (h : k' ≠ k) : findLoop k' (setLoop k v b) = findLoop k' b := by
  induction b with
  | nil => rfl
  | cons m rest ih =>
    by_cases hk : k = m.1
    · have hk' : k' ≠ m.1 := fun hc => h (hc.trans hk.symm)
      simp [setLoop, findLoop, hk, hk']
    · by_cases hk2 : k' = m.1
      · simp [setLoop, findLoop, hk, hk2]
      · simp [setLoop, findLoop, hk, hk2, ih]

theorem removeLoop_eq_none (k : α) (b : List (α × β)) :
    removeLoop k b = none ↔ findLoop k b = none := by
  induction b with
  | nil => simp [removeLoop, findLoop]
  | cons m rest ih =>
    by_cases hk : k = m.1
    · simp [removeLoop, findLoop, hk]
    · simp only [removeLoop, findLoop, if_neg hk]
      cases hr : removeLoop k rest with
      | some rest2 =>
        have h2 : ¬findLoop k rest = none := by
          intro hf
          rw [← ih] at hf
          rw [hr] at hf
          exact Option.noConfusion hf
        simp [hr, h2]
      | none =>
        have h2 : findLoop k rest = none := ih.mp hr
        simp [hr, h2]

theorem removeLoop_some {k : α} {b b2 : List (α × β)}
    (h : removeLoop k b = some b2) :
    ∃ n : α × β, n.1 = k ∧ b.Perm (n :: b2) := by
  induction b generalizing b2 with
  | nil => simp [removeLoop] at h
  | cons m rest ih =>
    by_cases hk : k = m.1
    · simp [removeLoop, hk] at h
      exact ⟨m, hk.symm, by rw [h]⟩
    · simp only [removeLoop, if_neg hk] at h
      cases hr : removeLoop k rest with
      | some rest2 =>
        rw [hr] at h
        simp at h
        obtain ⟨n, hn1, hperm⟩ := ih hr
        refine ⟨n, hn1, ?_⟩
        rw [← h]
        exact (hperm.cons m).trans (List.Perm.swap n m rest2)
      | none => rw [hr] at h; simp at h

end BucketLemmas

end JitHashTable

namespace JitHashTable

variable {α β : Type} [DecidableEq α]

section FlattenLemmas

variable {γ : Type}

theorem mem_flatten_getD {tbl : List (List γ)} {n : γ} :
    n ∈ tbl.flatten ↔ ∃ i, i < tbl.length ∧ n ∈ tbl.getD i [] := by
  rw [List.mem_flatten]
  constructor
  · rintro ⟨l, hl, hn⟩
    obtain ⟨i, hi, rfl⟩ := List.mem_iff_getElem.mp hl
    exact ⟨i, hi, by rwa [List.getD_eq_getElem?_getD, List.getElem?_eq_getElem hi]⟩
  · rintro ⟨i, hi, hn⟩
    refine ⟨tbl[i], List.getElem_mem hi, ?_⟩
    rwa [List.getD_eq_getElem?_getD, List.getElem?_eq_getElem hi] at hn

theorem getD_sublist_flatten (tbl : List (List γ)) (i : Nat) :
    (tbl.getD i []).Sublist tbl.flatten := by
  by_cases h : i < tbl.length
  · rw [flatten_split tbl i h, List.append_assoc]
    exact ((tbl.getD i []).sublist_append_left _).trans
      (List.sublist_append_right _ _)
  · rw [List.getD_eq_getElem?_getD, List.getElem?_eq_none (by omega)]
    exact List.nil_sublist _

theorem flatten_set_cons_perm (tbl : List (List γ)) (i : Nat) (x : γ)
    (h : i < tbl.length) :
    (tbl.set i (x :: tbl.getD i [])).flatten.Perm (x :: tbl.flatten) := by
  rw [flatten_set_eq tbl i _ h]
  have h1 : (tbl.take i).flatten ++ (x :: tbl.getD i []) ++ (tbl.drop (i + 1)).flatten
      = (tbl.take i).flatten ++ x :: (tbl.getD i [] ++ (tbl.drop (i + 1)).flatten) := by
    simp [List.append_assoc]
  rw [h1]
  refine List.perm_middle.trans ?_
  rw [flatten_split tbl i h, List.append_assoc]

theorem flatten_set_swap_perm {tbl : List (List γ)} {i : Nat} {b2 : List γ} {n : γ}
    (h : i < tbl.length) (hb : (tbl.getD i []).Perm (n :: b2)) :
    tbl.flatten.Perm (n :: (tbl.set i b2).flatten) := by
  rw [flatten_split tbl i h, flatten_set_eq tbl i b2 h]
  have h1 : (tbl.take i).flatten ++ tbl.getD i [] ++ (tbl.drop (i + 1)).flatten
      |>.Perm ((tbl.take i).flatten ++ (n :: b2) ++ (tbl.drop (i + 1)).flatten) :=
    ((hb.append_left _).append_right _)
  refine h1.trans ?_
  have h2 : (tbl.take i).flatten ++ (n :: b2) ++ (tbl.drop (i + 1)).flatten
      = (tbl.take i).flatten ++ n :: (b2 ++ (tbl.drop (i + 1)).flatten) := by
    simp [List.append_assoc]
  rw [h2]
  refine List.perm_middle.trans ?_
  rw [List.append_assoc]

end FlattenLemmas

theorem nextPrime_some {number : Nat} {p : JitPrimeInfo}
    (h : NextPrime number = some p) : p ∈ jitPrimeInfo ∧ number ≤ p.prime := by
  refine ⟨List.mem_of_find?_eq_some h, ?_⟩
  have := List.find?_some h
  simpa using this

theorem wf_sizeInfo_mem {hash : α → Nat} {t : Table α β} (hwf : WF hash t)
    (hp : t.tableSizeInfo.prime ≠ 0) : t.tableSizeInfo ∈ jitPrimeInfo := by
  rcases hwf.2.1 with h | h
  · exact absurd (by rw [h]) hp
  · exact h

theorem wf_index_lt {hash : α → Nat} (hh : HashOK hash) {t : Table α β}
    (hwf : WF hash t) (hp : t.tableSizeInfo.prime ≠ 0) (k : α) :
    GetIndexForKey t.tableSizeInfo hash k < t.table.length := by
  rw [hwf.1]
  exact magicNumberRem_lt _ (jitPrimeInfo_magicOK _ (wf_sizeInfo_mem hwf hp)) _ (hh k)

theorem findNode_of_mem {hash : α → Nat} {t : Table α β} (hwf : WF hash t)
    {k : α} {v : β} (hm : (k, v) ∈ t.table.flatten) :
    FindNode hash t k = some (k, v) := by
  obtain ⟨i, hi, hbi⟩ := mem_flatten_getD.mp hm
  have hidx : GetIndexForKey t.tableSizeInfo hash k = i := hwf.2.2.1 i (k, v) hbi
  have hp : t.tableSizeInfo.prime ≠ 0 := by
    have h1 := hwf.1
    intro h0
    omega
  unfold FindNode
  rw [if_neg hp, hidx]
  have hnd : ((t.table.getD i []).map Prod.fst).Nodup :=
    ((getD_sublist_flatten t.table i).map Prod.fst).nodup hwf.2.2.2.1
  exact findLoop_of_mem hnd hbi

theorem findNode_some {hash : α → Nat} {t : Table α β} {k : α} {n : α × β}
    (h : FindNode hash t k = some n) : n ∈ t.table.flatten ∧ n.1 = k := by
  unfold FindNode at h
  by_cases hp : t.tableSizeInfo.prime = 0
  · rw [if_pos hp] at h
    exact Option.noConfusion h
  · rw [if_neg hp] at h
    obtain ⟨hmem, hkey⟩ := findLoop_some h
    exact ⟨(getD_sublist_flatten t.table _).subset hmem, hkey⟩

theorem findNode_none_iff {hash : α → Nat} {t : Table α β} (hwf : WF hash t) (k : α) :
    FindNode hash t k = none ↔ ∀ v, (k, v) ∉ t.table.flatten := by
  constructor
  · intro h v hm
    have h2 := findNode_of_mem hwf hm
    rw [h] at h2
    exact Option.noConfusion h2
  · intro h
    cases hf : FindNode hash t k with
    | none => rfl
    | some n =>
      obtain ⟨hmem, hkey⟩ := findNode_some hf
      obtain ⟨a, b⟩ := n
      cases hkey
      exact absurd hmem (h b)

theorem absFind_eq_some_iff {hash : α → Nat} {t : Table α β} (hwf : WF hash t)
    (k : α) (v : β) : absFind hash t k = some v ↔ (k, v) ∈ t.table.flatten := by
  unfold absFind
  constructor
  · intro h
    cases hf : FindNode hash t k with
    | none => rw [hf] at h; exact Option.noConfusion h
    | some n =>
      rw [hf] at h
      obtain ⟨hmem, hkey⟩ := findNode_some hf
      obtain ⟨a, b⟩ := n
      cases hkey
      simp only [Option.map_some'] at h
      cases h
      exact hmem
  · intro hm
    rw [findNode_of_mem hwf hm]
    rfl

theorem absFind_eq_none_iff {hash : α → Nat} {t : Table α β} (hwf : WF hash t)
    (k : α) : absFind hash t k = none ↔ ∀ v, (k, v) ∉ t.table.flatten := by
  unfold absFind
  rw [Option.map_eq_none']
  exact findNode_none_iff hwf k

theorem absFind_congr_perm {hash : α → Nat} {t t' : Table α β} (hwf : WF hash t)
    (hwf' : WF hash t') (hperm : t'.table.flatten.Perm t.table.flatten) (k : α) :
    absFind hash t' k = absFind hash t k := by
  cases ha : absFind hash t k with
  | some v =>
    rw [absFind_eq_some_iff hwf']
    exact hperm.mem_iff.mpr ((absFind_eq_some_iff hwf k v).mp ha)
  | none =>
    rw [absFind_eq_none_iff hwf']
    intro v hm
    exact (absFind_eq_none_iff hwf k).mp ha v (hperm.mem_iff.mp hm)

end JitHashTable

namespace JitHashTable

variable {α β : Type} [DecidableEq α]

theorem rehashInsert_ok {hash : α → Nat} (hh : HashOK hash) {newPrime : JitPrimeInfo}
    (hmem : newPrime ∈ jitPrimeInfo) (acc : List (List (α × β))) (x : α × β)
    (hlen : acc.length = newPrime.prime) :
    (rehashInsert hash newPrime acc x).length = newPrime.prime ∧
    (rehashInsert hash newPrime acc x).flatten.Perm (x :: acc.flatten) ∧
    (bucketsOK hash newPrime acc →
      bucketsOK hash newPrime (rehashInsert hash newPrime acc x)) := by
  have hidx : newPrime.magicNumberRem (hash x.1) < acc.length := by
    rw [hlen]
    exact magicNumberRem_lt _ (jitPrimeInfo_magicOK _ hmem) _ (hh x.1)
  refine ⟨by simp [rehashInsert, List.length_set, hlen], ?_, ?_⟩
  · exact flatten_set_cons_perm acc _ x hidx
  · intro hb i n hn
    unfold rehashInsert at hn
    by_cases hij : newPrime.magicNumberRem (hash x.1) = i
    · subst hij
      rw [getD_set_self _ _ _ hidx] at hn
      rcases List.mem_cons.mp hn with rfl | hn2
      · rfl
      · exact hb _ n hn2
    · rw [getD_set_ne _ _ _ _ hij] at hn
      exact hb i n hn

theorem rehash_foldl_ok {hash : α → Nat} (hh : HashOK hash) {newPrime : JitPrimeInfo}
    (hmem : newPrime ∈ jitPrimeInfo) :
    ∀ (ns : List (α × β)) (acc : List (List (α × β))),
      acc.length = newPrime.prime →
      bucketsOK hash newPrime acc →
      (ns.foldl (rehashInsert hash newPrime) acc).length = newPrime.prime ∧
      bucketsOK hash newPrime (ns.foldl (rehashInsert hash newPrime) acc) ∧
      (ns.foldl (rehashInsert hash newPrime) acc).flatten.Perm (ns ++ acc.flatten) := by
  intro ns
  induction ns with
  | nil =>
    intro acc hlen hb
    exact ⟨hlen, hb, by simp⟩
  | cons x rest ih =>
    intro acc hlen hb
    obtain ⟨hl1, hp1, hb1⟩ := rehashInsert_ok hh hmem acc x hlen
    obtain ⟨hl2, hb2, hp2⟩ := ih (rehashInsert hash newPrime acc x) hl1 (hb1 hb)
    refine ⟨hl2, hb2, ?_⟩
    rw [List.foldl_cons]
    refine hp2.trans ?_
    refine (List.Perm.append_left rest hp1).trans ?_
    exact List.perm_middle

theorem replicate_nil_bucketsOK {hash : α → Nat} (newPrime : JitPrimeInfo) :
    bucketsOK hash newPrime
      (List.replicate newPrime.prime ([] : List (α × β))) := by
  intro i n hn
  rw [List.getD_eq_getElem?_getD, List.getElem?_replicate] at hn
  by_cases h : i < newPrime.prime
  · rw [if_pos h] at hn
    simp at hn
  · rw [if_neg h] at hn
    simp at hn

theorem replicate_nil_flatten :
    (List.replicate (n : Nat) ([] : List (α × β))).flatten = [] := by
  rw [List.flatten_eq_nil_iff]
  intro l hl
  exact (List.mem_replicate.mp hl).2

theorem reallocate_ok {hash : α → Nat} (hh : HashOK hash) {t : Table α β}
    (hwf : WF hash t) {n : Nat} {t' : Table α β}
    (h : Reallocate hash t n = some t') :
    WF hash t' ∧ t'.table.flatten.Perm t.table.flatten ∧
    t'.tableCount = t.tableCount ∧ t'.tableSizeInfo ∈ jitPrimeInfo ∧
    n ≤ t'.tableSizeInfo.prime ∧
    (∀ k, absFind hash t' k = absFind hash t k) := by
  unfold Reallocate at h
  cases hnp : NextPrime n with
  | none =>
    rw [hnp] at h
    exact Option.noConfusion h
  | some newPrime =>
    rw [hnp] at h
    obtain ⟨hmem, hge⟩ := nextPrime_some hnp
    simp only [Option.some.injEq] at h
    obtain ⟨hlen, hbok, hperm⟩ :=
      rehash_foldl_ok hh hmem t.table.flatten
        (List.replicate newPrime.prime ([] : List (α × β)))
        (List.length_replicate _ _) (replicate_nil_bucketsOK newPrime)
    rw [List.foldl_flatten] at hperm hlen hbok
    rw [replicate_nil_flatten, List.append_nil] at hperm
    rw [← h]
    have hnd : _ := (hperm.map Prod.fst).nodup_iff.mpr hwf.2.2.2.1
    have hcnt : t.tableCount =
        (t.table.foldl
          (fun acc bucket => bucket.foldl (rehashInsert hash newPrime) acc)
          (List.replicate newPrime.prime ([] : List (α × β)))).flatten.length := by
      rw [hwf.2.2.2.2.1]
      exact hperm.length_eq.symm
    refine ⟨⟨hlen, Or.inr hmem, hbok, hnd, hcnt, rfl⟩, hperm, rfl, hmem, hge, ?_⟩
    exact absFind_congr_perm hwf ⟨hlen, Or.inr hmem, hbok, hnd, hcnt, rfl⟩ hperm

theorem grow_eq_reallocate {hash : α → Nat} {t : Table α β} {t' : Table α β}
    (h : Grow hash t = some t') :
    ∃ m, (if growNewSize t.tableCount < s_minimum_allocation then s_minimum_allocation
          else growNewSize t.tableCount) = m ∧
         Reallocate hash t m = some t' := by
  simp only [Grow] at h
  by_cases hc : (if growNewSize t.tableCount < s_minimum_allocation
      then s_minimum_allocation else growNewSize t.tableCount) < t.tableCount
  · rw [if_pos hc] at h
    exact Option.noConfusion h
  · rw [if_neg hc] at h
    exact ⟨_, rfl, h⟩

theorem grow_ok {hash : α → Nat} (hh : HashOK hash) {t : Table α β}
    (hwf : WF hash t) {t' : Table α β} (h : Grow hash t = some t') :
    WF hash t' ∧ t'.table.flatten.Perm t.table.flatten ∧
    t'.tableCount = t.tableCount ∧ t'.tableSizeInfo ∈ jitPrimeInfo ∧
    (∀ k, absFind hash t' k = absFind hash t k) := by
  obtain ⟨m, _, hre⟩ := grow_eq_reallocate h
  obtain ⟨hwf', hperm, hcnt, hmem, _, habs⟩ := reallocate_ok hh hwf hre
  exact ⟨hwf', hperm, hcnt, hmem, habs⟩

theorem checkGrowth_ok {hash : α → Nat} (hh : HashOK hash) {t t' : Table α β}
    (hwf : WF hash t) (h : CheckGrowth hash t = some t') :
    WF hash t' ∧ t'.table.flatten.Perm t.table.flatten ∧
    t'.tableCount = t.tableCount ∧ t'.tableSizeInfo ∈ jitPrimeInfo ∧
    (∀ k, absFind hash t' k = absFind hash t k) := by
  unfold CheckGrowth at h
  by_cases hc : t.tableCount = t.tableMax
  · rw [if_pos hc] at h
    exact grow_ok hh hwf h
  · rw [if_neg hc] at h
    cases h
    refine ⟨hwf, List.Perm.refl _, rfl, ?_, fun k => rfl⟩
    rcases hwf.2.1 with hd | hm
    · exfalso
      apply hc
      have h1 := hwf.1
      have h5 := hwf.2.2.2.2.1
      have h6 := hwf.2.2.2.2.2
      rw [hd] at h1 h6
      have htab : t.table = [] := List.length_eq_zero.mp h1
      rw [h5, htab, h6]
      rfl
    · exact hm

end JitHashTable

namespace JitHashTable

variable {α β : Type} [DecidableEq α]

theorem key_notin_of_findLoop_none {hash : α → Nat} {t : Table α β}
    (hwf : WF hash t) {k : α} {i : Nat}
    (hi : i = GetIndexForKey t.tableSizeInfo hash k)
    (hfl : findLoop k (t.table.getD i []) = none) :
    ∀ w, (k, w) ∉ t.table.flatten := by
  intro w hw
  obtain ⟨j, hj, hbj⟩ := mem_flatten_getD.mp hw
  have hidx : GetIndexForKey t.tableSizeInfo hash k = j := hwf.2.2.1 j (k, w) hbj
  rw [hi, hidx] at hfl
  exact (findLoop_eq_none k _).mp hfl (k, w) hbj rfl

theorem insert_surgery {hash : α → Nat} (hh : HashOK hash) {t : Table α β}
    (hwf : WF hash t) (hmem : t.tableSizeInfo ∈ jitPrimeInfo) (k : α) (v : β)
    {i : Nat} {t' : Table α β}
    (hi : i = GetIndexForKey t.tableSizeInfo hash k)
    (hfl : findLoop k (t.table.getD i []) = none)
    (ht' : t' = { t with
                  table := t.table.set i ((k, v) :: t.table.getD i [])
                  tableCount := t.tableCount + 1 }) :
    WF hash t' ∧ t'.table.flatten.Perm ((k, v) :: t.table.flatten) ∧
    ∀ k', absFind hash t' k' = if k' = k then some v else absFind hash t k' := by
  subst ht'
  have hp : t.tableSizeInfo.prime ≠ 0 := by
    have := jitPrimeInfo_prime_pos _ hmem
    omega
  have hidx : i < t.table.length := by
    rw [hi]
    exact wf_index_lt hh hwf hp k
  have hknotin := key_notin_of_findLoop_none hwf hi hfl
  have hperm := flatten_set_cons_perm t.table i (k, v) hidx
  have hnd : (((t.table.set i ((k, v) :: t.table.getD i [])).flatten.map
      Prod.fst)).Nodup := by
    refine (hperm.map Prod.fst).nodup_iff.mpr ?_
    rw [List.map_cons]
    refine List.Nodup.cons ?_ hwf.2.2.2.1
    intro hkin
    obtain ⟨m, hm, hmk⟩ := List.mem_map.mp hkin
    obtain ⟨a, b⟩ := m
    cases hmk
    exact hknotin b hm
  have hwf' : WF hash ({ t with
      table := t.table.set i ((k, v) :: t.table.getD i [])
      tableCount := t.tableCount + 1 } : Table α β) := by
    refine ⟨?_, Or.inr hmem, ?_, hnd, ?_, hwf.2.2.2.2.2⟩
    · show (t.table.set i _).length = _
      rw [List.length_set]
      exact hwf.1
    · intro j n hn
      by_cases hij : i = j
      · subst hij
        rw [getD_set_self _ _ _ hidx] at hn
        rcases List.mem_cons.mp hn with rfl | hn2
        · exact hi.symm
        · exact hwf.2.2.1 i n hn2
      · rw [getD_set_ne _ _ _ _ hij] at hn
        exact hwf.2.2.1 j n hn
    · show t.tableCount + 1 = _
      rw [hwf.2.2.2.2.1, hperm.length_eq, List.length_cons]
  refine ⟨hwf', hperm, ?_⟩
  intro k'
  by_cases hkk : k' = k
  · subst hkk
    rw [if_pos rfl, absFind_eq_some_iff hwf']
    exact hperm.mem_iff.mpr (List.mem_cons_self _ _)
  · rw [if_neg hkk]
    cases ha : absFind hash t k' with
    | some w =>
      rw [absFind_eq_some_iff hwf']
      exact hperm.mem_iff.mpr
        (List.mem_cons_of_mem _ ((absFind_eq_some_iff hwf k' w).mp ha))
    | none =>
      rw [absFind_eq_none_iff hwf']
      intro w hw
      rcases List.mem_cons.mp (hperm.mem_iff.mp hw) with heq | hmem2
      · injection heq with h1 h2
        exact hkk h1
      · exact (absFind_eq_none_iff hwf k').mp ha w hmem2

end JitHashTable

namespace JitHashTable

variable {α β : Type} [DecidableEq α]

theorem findLoop_setLoop_split {k : α} {v : β} {b : List (α × β)} {n : α × β}
    (h : findLoop k b = some n) :
    ∃ pre post, b = pre ++ n :: post ∧ setLoop k v b = pre ++ (n.1, v) :: post := by
  induction b with
  | nil => simp [findLoop] at h
  | cons m rest ih =>
    by_cases hk : k = m.1
    · simp only [findLoop, if_pos hk, Option.some.injEq] at h
      subst h
      exact ⟨[], rest, rfl, by simp [setLoop, hk]⟩
    · simp only [findLoop, if_neg hk] at h
      obtain ⟨pre, post, hb, hs⟩ := ih h
      exact ⟨m :: pre, post, by rw [hb]; rfl, by simp [setLoop, hk, hs]⟩

theorem append_middle_perm {γ : Type} (A pre post C : List γ) (z : γ) :
    (A ++ (pre ++ z :: post) ++ C).Perm (z :: (A ++ (pre ++ post) ++ C)) := by
  have h1 : A ++ (pre ++ z :: post) ++ C = (A ++ pre) ++ z :: (post ++ C) := by
    simp [List.append_assoc]
  have h2 : A ++ (pre ++ post) ++ C = (A ++ pre) ++ (post ++ C) := by
    simp [List.append_assoc]
  rw [h1, h2]
  exact List.perm_middle

theorem flatten_modify_perm {γ : Type} (tbl : List (List γ)) (i : Nat)
    (pre post : List γ) (x y : γ) (h : i < tbl.length)
    (hb : tbl.getD i [] = pre ++ x :: post) :
    ∃ rest : List γ,
      tbl.flatten.Perm (x :: rest) ∧
      (tbl.set i (pre ++ y :: post)).flatten.Perm (y :: rest) := by
  refine ⟨(tbl.take i).flatten ++ (pre ++ post) ++ (tbl.drop (i + 1)).flatten, ?_, ?_⟩
  · rw [flatten_split tbl i h, hb]
    exact append_middle_perm _ _ _ _ _
  · rw [flatten_set_eq tbl i _ h]
    exact append_middle_perm _ _ _ _ _

theorem overwrite_surgery {hash : α → Nat} (hh : HashOK hash) {t : Table α β}
    (hwf : WF hash t) (hmem : t.tableSizeInfo ∈ jitPrimeInfo) (k : α) (v : β)
    {i : Nat} {n : α × β} {t' : Table α β}
    (hi : i = GetIndexForKey t.tableSizeInfo hash k)
    (hfl : findLoop k (t.table.getD i []) = some n)
    (ht' : t' = { t with table := t.table.set i (setLoop k v (t.table.getD i [])) }) :
    WF hash t' ∧ t'.tableCount = t.tableCount ∧
    ∀ k', absFind hash t' k' = if k' = k then some v else absFind hash t k' := by
  subst ht'
  have hp : t.tableSizeInfo.prime ≠ 0 := by
    have := jitPrimeInfo_prime_pos _ hmem
    omega
  have hidx : i < t.table.length := by
    rw [hi]
    exact wf_index_lt hh hwf hp k
  have hkey : n.1 = k := (findLoop_some hfl).2
  obtain ⟨pre, post, hb, hs⟩ := findLoop_setLoop_split (v := v) hfl
  obtain ⟨rest, hpermOld, hpermNew⟩ :=
    flatten_modify_perm t.table i pre post n (n.1, v) hidx hb
  rw [← hs] at hpermNew
  have hndOld : ((n.1 :: rest.map Prod.fst)).Nodup := by
    have := (hpermOld.map Prod.fst).nodup_iff.mp hwf.2.2.2.1
    simpa using this
  have hnd : (((t.table.set i (setLoop k v (t.table.getD i []))).flatten.map
      Prod.fst)).Nodup := by
    refine (hpermNew.map Prod.fst).nodup_iff.mpr ?_
    simpa using hndOld
  have hwf' : WF hash ({ t with
      table := t.table.set i (setLoop k v (t.table.getD i [])) } : Table α β) := by
    refine ⟨?_, Or.inr hmem, ?_, hnd, ?_, hwf.2.2.2.2.2⟩
    · show (t.table.set i _).length = _
      rw [List.length_set]
      exact hwf.1
    · intro j m hm
      by_cases hij : i = j
      · subst hij
        rw [getD_set_self _ _ _ hidx] at hm
        have hmk : m.1 ∈ (setLoop k v (t.table.getD i [])).map Prod.fst :=
          List.mem_map_of_mem Prod.fst hm
        rw [setLoop_map_fst] at hmk
        obtain ⟨m2, hm2, hmf⟩ := List.mem_map.mp hmk
        rw [← hmf]
        exact hwf.2.2.1 i m2 hm2
      · rw [getD_set_ne _ _ _ _ hij] at hm
        exact hwf.2.2.1 j m hm
    · show t.tableCount = _
      rw [hwf.2.2.2.2.1, hpermOld.length_eq, hpermNew.length_eq]
      simp
  refine ⟨hwf', rfl, ?_⟩
  intro k'
  by_cases hkk : k' = k
  · subst hkk
    rw [if_pos rfl, absFind_eq_some_iff hwf']
    refine hpermNew.mem_iff.mpr ?_
    rw [hkey]
    exact List.mem_cons_self _ _
  · rw [if_neg hkk]
    cases ha : absFind hash t k' with
    | some w =>
      rw [absFind_eq_some_iff hwf']
      have hmem2 := (absFind_eq_some_iff hwf k' w).mp ha
      rcases List.mem_cons.mp (hpermOld.mem_iff.mp hmem2) with heq | hrest
      · exfalso
        apply hkk
        rw [← heq] at hkey
        exact hkey
      · exact hpermNew.mem_iff.mpr (List.mem_cons_of_mem _ hrest)
    | none =>
      rw [absFind_eq_none_iff hwf']
      intro w hw
      rcases List.mem_cons.mp (hpermNew.mem_iff.mp hw) with heq | hrest
      · injection heq with h1 h2
        exact hkk (h1.trans hkey)
      · exact (absFind_eq_none_iff hwf k').mp ha w
          (hpermOld.mem_iff.mpr (List.mem_cons_of_mem _ hrest))

theorem remove_surgery {hash : α → Nat} (hh : HashOK hash) {t : Table α β}
    (hwf : WF hash t) (hmem : t.tableSizeInfo ∈ jitPrimeInfo) (k : α)
    {i : Nat} {b2 : List (α × β)} {t' : Table α β}
    (hi : i = GetIndexForKey t.tableSizeInfo hash k)
    (hrl : removeLoop k (t.table.getD i []) = some b2)
    (ht' : t' = { t with
                  table := t.table.set i b2
                  tableCount := t.tableCount - 1 }) :
    WF hash t' ∧
    ∀ k', absFind hash t' k' = if k' = k then none else absFind hash t k' := by
  subst ht'
  have hp : t.tableSizeInfo.prime ≠ 0 := by
    have := jitPrimeInfo_prime_pos _ hmem
    omega
  have hidx : i < t.table.length := by
    rw [hi]
    exact wf_index_lt hh hwf hp k
  obtain ⟨n, hkey, hbperm⟩ := removeLoop_some hrl
  have hperm : t.table.flatten.Perm (n :: (t.table.set i b2).flatten) :=
    flatten_set_swap_perm hidx hbperm
  have hndCons : ((n :: (t.table.set i b2).flatten).map Prod.fst).Nodup :=
    (hperm.map Prod.fst).nodup_iff.mp hwf.2.2.2.1
  rw [List.map_cons, List.nodup_cons] at hndCons
  have hwf' : WF hash ({ t with
      table := t.table.set i b2
      tableCount := t.tableCount - 1 } : Table α β) := by
    refine ⟨?_, Or.inr hmem, ?_, hndCons.2, ?_, hwf.2.2.2.2.2⟩
    · show (t.table.set i _).length = _
      rw [List.length_set]
      exact hwf.1
    · intro j m hm
      by_cases hij : i = j
      · subst hij
        rw [getD_set_self _ _ _ hidx] at hm
        have hm2 : m ∈ t.table.getD i [] :=
          hbperm.mem_iff.mpr (List.mem_cons_of_mem _ hm)
        exact hwf.2.2.1 i m hm2
      · rw [getD_set_ne _ _ _ _ hij] at hm
        exact hwf.2.2.1 j m hm
    · show t.tableCount - 1 = _
      rw [hwf.2.2.2.2.1, hperm.length_eq, List.length_cons]
      simp
  refine ⟨hwf', ?_⟩
  intro k'
  by_cases hkk : k' = k
  · subst hkk
    rw [if_pos rfl, absFind_eq_none_iff hwf']
    intro w hw
    apply hndCons.1
    rw [hkey]
    exact List.mem_map.mpr ⟨(k', w), hw, rfl⟩
  · rw [if_neg hkk]
    cases ha : absFind hash t k' with
    | some w =>
      rw [absFind_eq_some_iff hwf']
      have hmem2 := (absFind_eq_some_iff hwf k' w).mp ha
      rcases List.mem_cons.mp (hperm.mem_iff.mp hmem2) with heq | hrest
      · exfalso
        apply hkk
        rw [← heq] at hkey
        exact hkey
      · exact hrest
    | none =>
      rw [absFind_eq_none_iff hwf']
      intro w hw
      exact (absFind_eq_none_iff hwf k').mp ha w
        (hperm.mem_iff.mpr (List.mem_cons_of_mem _ hw))

end JitHashTable

namespace JitHashTable

variable {α β : Type} [DecidableEq α]

theorem findNode_eq_findLoop {hash : α → Nat} {t : Table α β}
    (hp : t.tableSizeInfo.prime ≠ 0) (k : α) :
    FindNode hash t k
      = findLoop k (t.table.getD (GetIndexForKey t.tableSizeInfo hash k) []) := by
  unfold FindNode
  rw [if_neg hp]

theorem prime_ne_zero_of_mem {info : JitPrimeInfo} (h : info ∈ jitPrimeInfo) :
    info.prime ≠ 0 := by
  have := jitPrimeInfo_prime_pos _ h
  omega

theorem set_spec {hash : α → Nat} (hh : HashOK hash) {t : Table α β}
    (hwf : WF hash t) {k : α} {v : β} {kind : SetKind} {r : SetResult α β}
    (h : Set hash t k v kind = some r) :
    WF hash r.table ∧
    ∀ k', absFind hash r.table k' = if k' = k then some v else absFind hash t k' := by
  simp only [Set] at h
  cases hcg : CheckGrowth hash t with
  | none => rw [hcg] at h; exact Option.noConfusion h
  | some t1 =>
    simp only [hcg] at h
    obtain ⟨hwf1, _, _, hmem1, habs1⟩ := checkGrowth_ok hh hwf hcg
    cases hfl : findLoop k (t1.table.getD (GetIndexForKey t1.tableSizeInfo hash k) []) with
    | some n =>
      simp only [hfl, Option.some.injEq] at h
      have h1 : r.table = { t1 with
          table := t1.table.set (GetIndexForKey t1.tableSizeInfo hash k)
            (setLoop k v (t1.table.getD (GetIndexForKey t1.tableSizeInfo hash k) [])) } := by
        rw [← h]
      obtain ⟨hwf', _, habs'⟩ := overwrite_surgery hh hwf1 hmem1 k v rfl hfl h1
      refine ⟨hwf', ?_⟩
      intro k'
      rw [habs' k', habs1 k']
    | none =>
      simp only [hfl, Option.some.injEq] at h
      have h1 : r.table = { t1 with
          table := t1.table.set (GetIndexForKey t1.tableSizeInfo hash k)
            ((k, v) :: t1.table.getD (GetIndexForKey t1.tableSizeInfo hash k) [])
          tableCount := t1.tableCount + 1 } := by
        rw [← h]
      obtain ⟨hwf', _, habs'⟩ := insert_surgery hh hwf1 hmem1 k v rfl hfl h1
      refine ⟨hwf', ?_⟩
      intro k'
      rw [habs' k', habs1 k']

theorem lpoa_spec {hash : α → Nat} (hh : HashOK hash) {t : Table α β}
    (hwf : WF hash t) {k : α} {d : β} {res : Table α β × β}
    (h : LookupPointerOrAdd hash t k d = some res) :
    WF hash res.1 ∧
    ∀ k', absFind hash res.1 k'
      = if k' = k then some ((absFind hash t k).getD d) else absFind hash t k' := by
  simp only [LookupPointerOrAdd] at h
  cases hcg : CheckGrowth hash t with
  | none => rw [hcg] at h; exact Option.noConfusion h
  | some t1 =>
    simp only [hcg] at h
    obtain ⟨hwf1, _, _, hmem1, habs1⟩ := checkGrowth_ok hh hwf hcg
    have hp1 : t1.tableSizeInfo.prime ≠ 0 := prime_ne_zero_of_mem hmem1
    cases hfl : findLoop k (t1.table.getD (GetIndexForKey t1.tableSizeInfo hash k) []) with
    | some n =>
      simp only [hfl, Option.some.injEq] at h
      have habsk : absFind hash t k = some n.2 := by
        rw [← habs1 k]
        unfold absFind
        rw [findNode_eq_findLoop hp1, hfl]
        rfl
      have h1 : res.1 = t1 := by rw [← h]
      rw [h1]
      refine ⟨hwf1, ?_⟩
      intro k'
      by_cases hkk : k' = k
      · subst hkk
        rw [if_pos rfl, habsk, habs1 k', habsk]
        rfl
      · rw [if_neg hkk, habs1 k']
    | none =>
      simp only [hfl, Option.some.injEq] at h
      have habsk : absFind hash t k = none := by
        rw [← habs1 k]
        unfold absFind
        rw [findNode_eq_findLoop hp1, hfl]
        rfl
      have h1 : res.1 = { t1 with
          table := t1.table.set (GetIndexForKey t1.tableSizeInfo hash k)
            ((k, d) :: t1.table.getD (GetIndexForKey t1.tableSizeInfo hash k) [])
          tableCount := t1.tableCount + 1 } := by
        rw [← h]
      obtain ⟨hwf', _, habs'⟩ := insert_surgery hh hwf1 hmem1 k d rfl hfl h1
      refine ⟨hwf', ?_⟩
      intro k'
      rw [habs' k', habs1 k']
      rw [habsk]
      rfl

theorem emplace_spec {hash : α → Nat} (hh : HashOK hash) {t : Table α β}
    (hwf : WF hash t) {k : α} {d : β} {res : Table α β × β}
    (h : Emplace hash t k d = some res) :
    WF hash res.1 ∧
    ∀ k', absFind hash res.1 k'
      = if k' = k then some ((absFind hash t k).getD d) else absFind hash t k' := by
  simp only [Emplace] at h
  cases hcg : CheckGrowth hash t with
  | none => rw [hcg] at h; exact Option.noConfusion h
  | some t1 =>
    simp only [hcg] at h
    obtain ⟨hwf1, _, _, hmem1, habs1⟩ := checkGrowth_ok hh hwf hcg
    have hp1 : t1.tableSizeInfo.prime ≠ 0 := prime_ne_zero_of_mem hmem1
    cases hfl : findLoop k (t1.table.getD (GetIndexForKey t1.tableSizeInfo hash k) []) with
    | some n =>
      simp only [hfl, Option.some.injEq] at h
      have habsk : absFind hash t k = some n.2 := by
        rw [← habs1 k]
        unfold absFind
        rw [findNode_eq_findLoop hp1, hfl]
        rfl
      have h1 : res.1 = t1 := by rw [← h]
      rw [h1]
      refine ⟨hwf1, ?_⟩
      intro k'
      by_cases hkk : k' = k
      · subst hkk
        rw [if_pos rfl, habsk, habs1 k', habsk]
        rfl
      · rw [if_neg hkk, habs1 k']
    | none =>
      simp only [hfl, Option.some.injEq] at h
      have habsk : absFind hash t k = none := by
        rw [← habs1 k]
        unfold absFind
        rw [findNode_eq_findLoop hp1, hfl]
        rfl
      have h1 : res.1 = { t1 with
          table := t1.table.set (GetIndexForKey t1.tableSizeInfo hash k)
            ((k, d) :: t1.table.getD (GetIndexForKey t1.tableSizeInfo hash k) [])
          tableCount := t1.tableCount + 1 } := by
        rw [← h]
      obtain ⟨hwf', _, habs'⟩ := insert_surgery hh hwf1 hmem1 k d rfl hfl h1
      refine ⟨hwf', ?_⟩
      intro k'
      rw [habs' k', habs1 k']
      rw [habsk]
      rfl

theorem remove_spec {hash : α → Nat} (hh : HashOK hash) {t : Table α β}
    (hwf : WF hash t) {k : α} {res : Table α β × Bool}
    (h : Remove hash t k = some res) :
    WF hash res.1 ∧
    ∀ k', absFind hash res.1 k' = if k' = k then none else absFind hash t k' := by
  simp only [Remove] at h
  cases hb : t.table[GetIndexForKey t.tableSizeInfo hash k]? with
  | none => rw [hb] at h; exact Option.noConfusion h
  | some bucket =>
    simp only [hb] at h
    have hblt : GetIndexForKey t.tableSizeInfo hash k < t.table.length := by
      by_contra hge
      rw [List.getElem?_eq_none (by omega)] at hb
      exact Option.noConfusion hb
    have hbD : t.table.getD (GetIndexForKey t.tableSizeInfo hash k) [] = bucket := by
      rw [List.getD_eq_getElem?_getD, hb]
      rfl
    have hp : t.tableSizeInfo.prime ≠ 0 := by
      have h1 := hwf.1
      omega
    have hmem := wf_sizeInfo_mem hwf hp
    cases hrl : removeLoop k bucket with
    | some b2 =>
      simp only [hrl, Option.some.injEq] at h
      have h1 : res.1 = { t with
          table := t.table.set (GetIndexForKey t.tableSizeInfo hash k) b2
          tableCount := t.tableCount - 1 } := by
        rw [← h]
      obtain ⟨hwf', habs'⟩ :=
        remove_surgery hh hwf hmem k rfl (by rw [hbD]; exact hrl) h1
      exact ⟨hwf', habs'⟩
    | none =>
      simp only [hrl, Option.some.injEq] at h
      have hfn : FindNode hash t k = none := by
        rw [findNode_eq_findLoop hp, hbD]
        exact (removeLoop_eq_none k bucket).mp hrl
      have h1 : res.1 = t := by rw [← h]
      rw [h1]
      refine ⟨hwf, ?_⟩
      intro k'
      by_cases hkk : k' = k
      · subst hkk
        rw [if_pos rfl]
        unfold absFind
        rw [hfn]
        rfl
      · rw [if_neg hkk]

theorem step_ok {hash : α → Nat} (hh : HashOK hash) {t : Table α β}
    (hwf : WF hash t) {op : Op α β} {t' : Table α β}
    (h : step hash t op = some t') :
    WF hash t' ∧ ∀ k, absFind hash t' k = opApply (absFind hash t) op k := by
  cases op with
  | set k v kind =>
    simp only [step, Option.map_eq_some'] at h
    obtain ⟨r, hr, hrt⟩ := h
    obtain ⟨hwf', habs'⟩ := set_spec hh hwf hr
    rw [← hrt]
    exact ⟨hwf', habs'⟩
  | lookupPointerOrAdd k d =>
    simp only [step, Option.map_eq_some'] at h
    obtain ⟨r, hr, hrt⟩ := h
    obtain ⟨hwf', habs'⟩ := lpoa_spec hh hwf hr
    rw [← hrt]
    exact ⟨hwf', habs'⟩
  | emplace k d =>
    simp only [step, Option.map_eq_some'] at h
    obtain ⟨r, hr, hrt⟩ := h
    obtain ⟨hwf', habs'⟩ := emplace_spec hh hwf hr
    rw [← hrt]
    exact ⟨hwf', habs'⟩
  | remove k =>
    simp only [step, Option.map_eq_some'] at h
    obtain ⟨r, hr, hrt⟩ := h
    obtain ⟨hwf', habs'⟩ := remove_spec hh hwf hr
    rw [← hrt]
    exact ⟨hwf', habs'⟩
  | removeAll =>
    simp only [step, Option.some.injEq] at h
    rw [← h]
    refine ⟨wf_emptyTable hash, ?_⟩
    intro k
    rfl
  | reallocate n =>
    simp only [step] at h
    obtain ⟨hwf', _, _, _, _, habs'⟩ := reallocate_ok hh hwf h
    exact ⟨hwf', habs'⟩

theorem exec_ok {hash : α → Nat} (hh : HashOK hash) :
    ∀ (ops : List (Op α β)) (t t' : Table α β), WF hash t →
      exec hash t ops = some t' →
      WF hash t' ∧ ∀ k, absFind hash t' k = specFold (absFind hash t) ops k := by
  intro ops
  induction ops with
  | nil =>
    intro t t' hwf h
    cases h
    exact ⟨hwf, fun k => rfl⟩
  | cons op rest ih =>
    intro t t' hwf h
    simp only [exec] at h
    cases hs : step hash t op with
    | none => rw [hs] at h; exact Option.noConfusion h
    | some t2 =>
      simp only [hs] at h
      obtain ⟨hwf2, habs2⟩ := step_ok hh hwf hs
      obtain ⟨hwf', habs'⟩ := ih t2 t' hwf2 h
      refine ⟨hwf', ?_⟩
      intro k
      rw [habs' k]
      show specFold (absFind hash t2) rest k
        = specFold (opApply (absFind hash t) op) rest k
      rw [funext habs2]

theorem exec_empty_ok {hash : α → Nat} (hh : HashOK hash)
    {ops : List (Op α β)} {t : Table α β}
    (h : exec hash emptyTable ops = some t) :
    WF hash t ∧ ∀ k, absFind hash t k = specMapOf ops k := by
  obtain ⟨hwf, habs⟩ := exec_ok hh ops emptyTable t (wf_emptyTable hash) h
  refine ⟨hwf, ?_⟩
  intro k
  rw [habs k]
  show specFold (absFind hash emptyTable) ops k = specFold (fun _ => none) ops k
  have : absFind hash (emptyTable : Table α β) = fun _ => none := rfl
  rw [this]

end JitHashTable

namespace JitHashTable

variable {α β : Type} [DecidableEq α]

/-- The cursor state of `JitHashTable::NodeIterator`: the bucket array, the
current node (modelled as the rest of the chain from that node; `[]` is a
null `m_node`), the array length, and the current bucket index. -/
structure NodeIterator (α β : Type) where
  table : List (List (α × β))
  node : List (α × β)
  tableSize : Nat
  index : Nat

/-- The skip loop shared by the constructor and `Next`:
`while ((m_index < m_tableSize) && (m_table[m_index] == nullptr)) m_index++;`
(a null chain head is an empty bucket). -/
def skipEmpty (tbl : List (List (α × β))) (size : Nat) (idx : Nat) : Nat :=
  if h : idx < size ∧ (tbl.getD idx []).isEmpty then
    skipEmpty tbl size (idx + 1)
  else idx
termination_by size - idx
decreasing_by omega

/-- Mirrors `NodeIterator::Next`: advance along the chain; at its end, skip
forward to the next occupied bucket or the terminal state.  Advancing the
terminal ("end") iterator has no effect. -/
def next (it : NodeIterator α β) : NodeIterator α β :=
  match it.node with
  | _ :: rest =>
    if rest.isEmpty then
      { it with
        index := skipEmpty it.table it.tableSize (it.index + 1)
        node := if skipEmpty it.table it.tableSize (it.index + 1) < it.tableSize
                then it.table.getD (skipEmpty it.table it.tableSize (it.index + 1)) []
                else [] }
    else { it with node := rest }
  | [] =>
    { it with
      index := skipEmpty it.table it.tableSize it.index
      node := if skipEmpty it.table it.tableSize it.index < it.tableSize
              then it.table.getD (skipEmpty it.table it.tableSize it.index) []
              else [] }

/-- Mirrors `NodeIterator(hash, begin := true)`: start at bucket 0, skip past
empty buckets when the table is non-empty; a count of zero leaves the null
node (the loop `begin != end` then does zero iterations). -/
def beginIter (t : Table α β) : NodeIterator α β :=
  if 0 < t.tableCount then
    { table := t.table
      node := if skipEmpty t.table t.tableSizeInfo.prime 0 < t.tableSizeInfo.prime
              then t.table.getD (skipEmpty t.table t.tableSizeInfo.prime 0) []
              else []
      tableSize := t.tableSizeInfo.prime
      index := skipEmpty t.table t.tableSizeInfo.prime 0 }
  else
    { table := t.table, node := [], tableSize := t.tableSizeInfo.prime, index := 0 }

/-- The sequence of nodes a range-based `for` visits: dereference the cursor
(`operator*` of the key, value and key/value iterators all read `m_node`) and
advance, until the cursor compares equal to the end iterator (`operator!=`
compares `m_node`, and the end iterator's node is null). -/
def iterTrace : Nat → NodeIterator α β → List (α × β)
  | 0, _ => []
  | fuel + 1, it =>
    match it.node with
    | [] => []
    | n :: _ => n :: iterTrace fuel (next it)

/-- The cursor invariant: the recorded size is the array length; a null node
means no nodes remain beyond the current bucket; a live node means the index
is in range. -/
def ItInv (it : NodeIterator α β) : Prop :=
  it.tableSize = it.table.length ∧
  (it.node = [] → (it.table.drop (it.index + 1)).flatten = []) ∧
  (it.node ≠ [] → it.index < it.tableSize)

/-- The nodes a cursor still has to visit. -/
def traceVal (it : NodeIterator α β) : List (α × β) :=
  it.node ++ (it.table.drop (it.index + 1)).flatten

theorem skipEmpty_spec (tbl : List (List (α × β))) (size : Nat) :
    ∀ idx, size = tbl.length → idx ≤ size →
    idx ≤ skipEmpty tbl size idx ∧ skipEmpty tbl size idx ≤ size ∧
    ((tbl.drop idx).flatten
      = if skipEmpty tbl size idx < size
        then tbl.getD (skipEmpty tbl size idx) []
             ++ (tbl.drop (skipEmpty tbl size idx + 1)).flatten
        else []) ∧
    (skipEmpty tbl size idx < size → tbl.getD (skipEmpty tbl size idx) [] ≠ []) := by
  intro idx
  generalize hfuel : size - idx = fuel
  induction fuel generalizing idx with
  | zero =>
    intro hsize hidx
    have heq : idx = size := by omega
    have hcond : ¬(idx < size ∧ (tbl.getD idx []).isEmpty) := by
      intro hc
      omega
    have hskip : skipEmpty tbl size idx = idx := by
      rw [skipEmpty.eq_def, dif_neg hcond]
    rw [hskip]
    have hdrop : tbl.drop idx = [] := List.drop_eq_nil_of_le (by omega)
    refine ⟨Nat.le_refl idx, by omega, ?_, by omega⟩
    rw [if_neg (by omega), hdrop]
    rfl
  | succ fuel ih =>
    intro hsize hidx
    by_cases hcond : idx < size ∧ (tbl.getD idx []).isEmpty
    · have hskip : skipEmpty tbl size idx = skipEmpty tbl size (idx + 1) := by
        rw [skipEmpty.eq_def, dif_pos hcond]
      rw [hskip]
      obtain ⟨hlt, hnilb⟩ := hcond
      have hnil : tbl.getD idx [] = [] := List.isEmpty_iff.mp hnilb
      obtain ⟨h1, h2, h3, h4⟩ := ih (idx + 1) (by omega) hsize (by omega)
      refine ⟨by omega, h2, ?_, h4⟩
      have hdrop : tbl.drop idx = tbl.getD idx [] :: tbl.drop (idx + 1) := by
        rw [List.getD_eq_getElem?_getD,
          List.getElem?_eq_getElem (by omega : idx < tbl.length)]
        exact List.drop_eq_getElem_cons (by omega)
      rw [hdrop, List.flatten_cons, hnil, List.nil_append]
      exact h3
    · have hskip : skipEmpty tbl size idx = idx := by
        rw [skipEmpty.eq_def, dif_neg hcond]
      rw [hskip]
      by_cases hlt : idx < size
      · have hne : tbl.getD idx [] ≠ [] := by
          intro hc
          exact hcond ⟨hlt, by rw [hc]; rfl⟩
        refine ⟨Nat.le_refl idx, by omega, ?_, fun _ => hne⟩
        rw [if_pos hlt]
        have hdrop : tbl.drop idx = tbl.getD idx [] :: tbl.drop (idx + 1) := by
          rw [List.getD_eq_getElem?_getD,
            List.getElem?_eq_getElem (by omega : idx < tbl.length)]
          exact List.drop_eq_getElem_cons (by omega)
        rw [hdrop, List.flatten_cons]
      · have hdrop : tbl.drop idx = [] := List.drop_eq_nil_of_le (by omega)
        refine ⟨Nat.le_refl idx, by omega, ?_, by omega⟩
        rw [if_neg hlt, hdrop]
        rfl

theorem next_inv {it : NodeIterator α β} (hinv : ItInv it) {n : α × β}
    {rest : List (α × β)} (hn : it.node = n :: rest) :
    ItInv (next it) ∧
    traceVal (next it) = rest ++ (it.table.drop (it.index + 1)).flatten := by
  have hidx : it.index < it.tableSize := hinv.2.2 (by rw [hn]; simp)
  by_cases hrest : rest = []
  · subst hrest
    obtain ⟨h1, h2, h3, h4⟩ :=
      skipEmpty_spec it.table it.tableSize (it.index + 1) hinv.1 (by omega)
    have hnext : next it = { it with
        index := skipEmpty it.table it.tableSize (it.index + 1)
        node := if skipEmpty it.table it.tableSize (it.index + 1) < it.tableSize
                then it.table.getD (skipEmpty it.table it.tableSize (it.index + 1)) []
                else [] } := by
      unfold next
      rw [hn]
      rfl
    rw [hnext]
    by_cases hj : skipEmpty it.table it.tableSize (it.index + 1) < it.tableSize
    · refine ⟨⟨hinv.1, ?_, fun _ => hj⟩, ?_⟩
      · intro hnode
        rw [if_pos hj] at hnode
        exact absurd hnode (h4 hj)
      · unfold traceVal
        rw [if_pos hj] at h3 ⊢
        rw [h3]
        rfl
    · have hd : it.table.drop
          (skipEmpty it.table it.tableSize (it.index + 1) + 1) = [] := by
        apply List.drop_eq_nil_of_le
        rw [← hinv.1]
        omega
      refine ⟨⟨hinv.1, ?_, ?_⟩, ?_⟩
      · intro _
        show (it.table.drop (skipEmpty it.table it.tableSize (it.index + 1) + 1)).flatten = []
        rw [hd]
        rfl
      · intro hnode
        rw [if_neg hj] at hnode
        exact absurd rfl hnode
      · unfold traceVal
        rw [if_neg hj] at h3 ⊢
        show [] ++ (it.table.drop (skipEmpty it.table it.tableSize (it.index + 1) + 1)).flatten
          = [] ++ (it.table.drop (it.index + 1)).flatten
        rw [hd, h3]
        rfl
  · have hnext : next it = { it with node := rest } := by
      unfold next
      rw [hn]
      have hre : rest.isEmpty = false := by
        cases rest with
        | nil => exact absurd rfl hrest
        | cons a l => rfl
      simp [hre]
    rw [hnext]
    exact ⟨⟨hinv.1, fun hc => absurd hc hrest, fun _ => hidx⟩, rfl⟩

theorem iterTrace_eq :
    ∀ (fuel : Nat) (it : NodeIterator α β), ItInv it →
      (traceVal it).length < fuel → iterTrace fuel it = traceVal it := by
  intro fuel
  induction fuel with
  | zero =>
    intro it _ h
    omega
  | succ fuel ih =>
    intro it hinv hlen
    cases hn : it.node with
    | nil =>
      simp only [iterTrace, hn]
      unfold traceVal
      rw [hn, hinv.2.1 hn]
      rfl
    | cons n rest =>
      simp only [iterTrace, hn]
      obtain ⟨hinv', htv⟩ := next_inv hinv hn
      have hlen' : (traceVal (next it)).length < fuel := by
        rw [htv]
        unfold traceVal at hlen
        rw [hn] at hlen
        simp only [List.length_append, List.length_cons] at hlen ⊢
        omega
      rw [ih (next it) hinv' hlen', htv]
      unfold traceVal
      rw [hn]
      rfl

theorem beginIter_traceVal {hash : α → Nat} {t : Table α β} (hwf : WF hash t) :
    ItInv (beginIter t) ∧ traceVal (beginIter t) = t.table.flatten := by
  have hsize : t.tableSizeInfo.prime = t.table.length := hwf.1.symm
  by_cases hc : 0 < t.tableCount
  · obtain ⟨h1, h2, h3, h4⟩ :=
      skipEmpty_spec t.table t.tableSizeInfo.prime 0 hsize (by omega)
    rw [List.drop_zero] at h3
    by_cases hj : skipEmpty t.table t.tableSizeInfo.prime 0 < t.tableSizeInfo.prime
    · have hbeg : beginIter t = ⟨t.table,
          t.table.getD (skipEmpty t.table t.tableSizeInfo.prime 0) [],
          t.tableSizeInfo.prime, skipEmpty t.table t.tableSizeInfo.prime 0⟩ := by
        unfold beginIter
        rw [if_pos hc, if_pos hj]
      rw [hbeg, if_pos hj] at *
      refine ⟨⟨hsize, ?_, fun _ => hj⟩, ?_⟩
      · intro hnode
        exact absurd hnode (h4 hj)
      · unfold traceVal
        rw [h3]
    · exfalso
      rw [if_neg hj] at h3
      have hcount := hwf.2.2.2.2.1
      rw [h3] at hcount
      simp at hcount
      omega
  · have hcount := hwf.2.2.2.2.1
    have hflat : t.table.flatten = [] := by
      apply List.length_eq_zero.mp
      omega
    have hdropnil : ∀ m, (t.table.drop m).flatten = [] := by
      intro m
      apply List.flatten_eq_nil_iff.mpr
      intro l hl
      exact List.flatten_eq_nil_iff.mp hflat l (List.drop_subset _ _ hl)
    have hbeg : beginIter t
        = ⟨t.table, [], t.tableSizeInfo.prime, 0⟩ := by
      unfold beginIter
      rw [if_neg hc]
    rw [hbeg]
    refine ⟨⟨hsize, fun _ => hdropnil 1, fun hnode => absurd rfl hnode⟩, ?_⟩
    unfold traceVal
    show [] ++ _ = _
    rw [List.nil_append, hflat]
    exact hdropnil 1

theorem iterTrace_flatten {hash : α → Nat} {t : Table α β} (hwf : WF hash t) :
    iterTrace (t.tableCount + 1) (beginIter t) = t.table.flatten := by
  obtain ⟨hinv, htv⟩ := beginIter_traceVal hwf
  have hlen : (traceVal (beginIter t)).length < t.tableCount + 1 := by
    rw [htv]
    have := hwf.2.2.2.2.1
    omega
  rw [iterTrace_eq _ _ hinv hlen, htv]

end JitHashTable

namespace JitHashTable

variable {α β : Type} [DecidableEq α]

/-- For a table currently sized by entry `i` whose population has reached the
density threshold, the prime `Grow` selects is at least `i.prime`: checked by
evaluation over the whole static table. -/
def growKeeps (i : JitPrimeInfo) : Bool :=
  match NextPrime (if growNewSize (i.prime * s_density_factor_numerator % 2 ^ 32 /
        s_density_factor_denominator) < s_minimum_allocation
      then s_minimum_allocation
      else growNewSize (i.prime * s_density_factor_numerator % 2 ^ 32 /
        s_density_factor_denominator)) with
  | some j => decide (i.prime ≤ j.prime)
  | none => true

theorem growKeeps_all : ∀ i ∈ jitPrimeInfo, growKeeps i = true := by decide

theorem grow_mono {hash : α → Nat} (hh : HashOK hash) {t : Table α β}
    (hwf : WF hash t) {t' : Table α β} (h : Grow hash t = some t')
    (hcnt : t.tableCount = t.tableMax) :
    t.table.length ≤ t'.table.length := by
  rcases hwf.2.1 with hd | hm
  · have h1 : t.table.length = 0 := by rw [hwf.1, hd]
    omega
  · obtain ⟨m, hmeq, hre⟩ := grow_eq_reallocate h
    obtain ⟨hwf', _, _, _, _, _⟩ := reallocate_ok hh hwf hre
    have hgk := growKeeps_all t.tableSizeInfo hm
    unfold growKeeps at hgk
    have hcM : t.tableCount
        = t.tableSizeInfo.prime * s_density_factor_numerator % 2 ^ 32 /
          s_density_factor_denominator := hcnt.trans hwf.2.2.2.2.2
    rw [← hcM, hmeq] at hgk
    have hre2 := hre
    unfold Reallocate at hre2
    cases hq : NextPrime m with
    | none =>
      rw [hq] at hre2
      exact Option.noConfusion hre2
    | some j =>
      rw [hq] at hre2
      simp only [Option.some.injEq] at hre2
      rw [hq] at hgk
      have hle : t.tableSizeInfo.prime ≤ j.prime := of_decide_eq_true hgk
      have hsz : t'.tableSizeInfo = j := by rw [← hre2]
      rw [hwf.1, hwf'.1, hsz]
      exact hle

theorem checkGrowth_mono {hash : α → Nat} (hh : HashOK hash) {t t' : Table α β}
    (hwf : WF hash t) (h : CheckGrowth hash t = some t') :
    t.table.length ≤ t'.table.length := by
  unfold CheckGrowth at h
  by_cases hc : t.tableCount = t.tableMax
  · rw [if_pos hc] at h
    exact grow_mono hh hwf h hc
  · rw [if_neg hc] at h
    cases h
    exact Nat.le_refl _

theorem step_mono {hash : α → Nat} (hh : HashOK hash) {t : Table α β}
    (hwf : WF hash t) {op : Op α β} {t' : Table α β}
    (h : step hash t op = some t')
    (hra : ∀ n, op ≠ Op.reallocate n) (hrm : op ≠ Op.removeAll) :
    t.table.length ≤ t'.table.length := by
  cases op with
  | set k v kind =>
    simp only [step, Option.map_eq_some'] at h
    obtain ⟨r, hr, hrt⟩ := h
    simp only [Set] at hr
    cases hcg : CheckGrowth hash t with
    | none => rw [hcg] at hr; exact Option.noConfusion hr
    | some t1 =>
      simp only [hcg] at hr
      have h1 := checkGrowth_mono hh hwf hcg
      cases hfl : findLoop k (t1.table.getD (GetIndexForKey t1.tableSizeInfo hash k) []) with
      | some n =>
        simp only [hfl, Option.some.injEq] at hr
        rw [← hrt, ← hr]
        show t.table.length ≤ (t1.table.set _ _).length
        rw [List.length_set]
        exact h1
      | none =>
        simp only [hfl, Option.some.injEq] at hr
        rw [← hrt, ← hr]
        show t.table.length ≤ (t1.table.set _ _).length
        rw [List.length_set]
        exact h1
  | lookupPointerOrAdd k d =>
    simp only [step, Option.map_eq_some'] at h
    obtain ⟨r, hr, hrt⟩ := h
    simp only [LookupPointerOrAdd] at hr
    cases hcg : CheckGrowth hash t with
    | none => rw [hcg] at hr; exact Option.noConfusion hr
    | some t1 =>
      simp only [hcg] at hr
      have h1 := checkGrowth_mono hh hwf hcg
      cases hfl : findLoop k (t1.table.getD (GetIndexForKey t1.tableSizeInfo hash k) []) with
      | some n =>
        simp only [hfl, Option.some.injEq] at hr
        rw [← hrt, ← hr]
        exact h1
      | none =>
        simp only [hfl, Option.some.injEq] at hr
        rw [← hrt, ← hr]
        show t.table.length ≤ (t1.table.set _ _).length
        rw [List.length_set]
        exact h1
  | emplace k d =>
    simp only [step, Option.map_eq_some'] at h
    obtain ⟨r, hr, hrt⟩ := h
    simp only [Emplace] at hr
    cases hcg : CheckGrowth hash t with
    | none => rw [hcg] at hr; exact Option.noConfusion hr
    | some t1 =>
      simp only [hcg] at hr
      have h1 := checkGrowth_mono hh hwf hcg
      cases hfl : findLoop k (t1.table.getD (GetIndexForKey t1.tableSizeInfo hash k) []) with
      | some n =>
        simp only [hfl, Option.some.injEq] at hr
        rw [← hrt, ← hr]
        exact h1
      | none =>
        simp only [hfl, Option.some.injEq] at hr
        rw [← hrt, ← hr]
        show t.table.length ≤ (t1.table.set _ _).length
        rw [List.length_set]
        exact h1
  | remove k =>
    simp only [step, Option.map_eq_some'] at h
    obtain ⟨r, hr, hrt⟩ := h
    simp only [Remove] at hr
    cases hb : t.table[GetIndexForKey t.tableSizeInfo hash k]? with
    | none => rw [hb] at hr; exact Option.noConfusion hr
    | some bucket =>
      simp only [hb] at hr
      cases hrl : removeLoop k bucket with
      | some b2 =>
        simp only [hrl, Option.some.injEq] at hr
        rw [← hrt, ← hr]
        show t.table.length ≤ (t.table.set _ _).length
        rw [List.length_set]
      | none =>
        simp only [hrl, Option.some.injEq] at hr
        rw [← hrt, ← hr]
  | removeAll => exact absurd rfl hrm
  | reallocate n => exact absurd rfl (hra n)

end JitHashTable

namespace JitHashTable

variable {α β : Type} [DecidableEq α]

/-- A concrete hash strategy for witnesses: `JitSmallPrimitiveKeyFuncs` for
natural-number keys (cast to `unsigned`). -/
def hashId : Nat → Nat := fun n => n % 2 ^ 32

theorem hashId_ok : HashOK hashId := by
  intro k
  exact Nat.mod_lt _ (by norm_num)

/-- C1: for every sequence of operations run on a freshly constructed table,
and every key the specification-level map sends to a value `v` (the key was
inserted via `Set`, `LookupPointerOrAdd` or `Emplace` and not subsequently
removed, and `v` is the value most recently established for it), `Lookup`
returns `true` and stores exactly `v` through the caller's out-pointer. -/
theorem c1_lookup_last_set {hash : α → Nat} (hh : HashOK hash)
    (ops : List (Op α β)) (t : Table α β)
    (hex : exec hash emptyTable ops = some t) (k : α) (v : β)
    (hk : specMapOf ops k = some v) (w : β) :
    Lookup hash t k (some w) = (true, some v) := by
  obtain ⟨hwf, habs⟩ := exec_empty_ok hh hex
  have h2 : absFind hash t k = some v := by rw [habs k, hk]
  unfold absFind at h2
  rw [Option.map_eq_some'] at h2
  obtain ⟨n, hn, hnv⟩ := h2
  simp only [Lookup, hn, hnv]

def c1ops : List (Op Nat Nat) :=
  [.set 3 42 .overwrite, .set 4 7 .overwrite, .set 3 43 .overwrite]

def c1t : Table Nat Nat := (exec hashId emptyTable c1ops).getD emptyTable

theorem c1_witness :
    exec hashId emptyTable c1ops = some c1t ∧ specMapOf c1ops 3 = some 43 ∧
    Lookup hashId c1t 3 (some 0) = (true, some 43) :=
  ⟨by decide, by decide,
    c1_lookup_last_set hashId_ok c1ops c1t (by decide) 3 43 (by decide) 0⟩

/-- C2: a growth/rehash event — automatic `Grow` or explicit `Reallocate` —
keeps every key present beforehand present afterwards with the same value,
leaves `GetCount` unchanged, and migrates the stored entries as a permutation
(no entry lost or duplicated). -/
theorem c2_rehash_lossless (hash : α → Nat) (hh : HashOK hash)
    (t : Table α β) (hwf : WF hash t) :
    (∀ n t', Reallocate hash t n = some t' →
      (∀ k v, absFind hash t k = some v → absFind hash t' k = some v) ∧
      GetCount t' = GetCount t ∧ t'.table.flatten.Perm t.table.flatten) ∧
    (∀ t', Grow hash t = some t' →
      (∀ k v, absFind hash t k = some v → absFind hash t' k = some v) ∧
      GetCount t' = GetCount t ∧ t'.table.flatten.Perm t.table.flatten) := by
  constructor
  · intro n t' h
    obtain ⟨hwf', hperm, hcnt, _, _, habs⟩ := reallocate_ok hh hwf h
    exact ⟨fun k v hv => by rw [habs k]; exact hv, hcnt, hperm⟩
  · intro t' h
    obtain ⟨hwf', hperm, hcnt, _, habs⟩ := grow_ok hh hwf h
    exact ⟨fun k v hv => by rw [habs k]; exact hv, hcnt, hperm⟩

def c2ops : List (Op Nat Nat) := [.set 1 10 .overwrite, .set 2 20 .overwrite]

def c2t : Table Nat Nat := (exec hashId emptyTable c2ops).getD emptyTable

def c2t2 : Table Nat Nat := (Reallocate hashId c2t 8).getD emptyTable

theorem c2_witness :
    Reallocate hashId c2t 8 = some c2t2 ∧ GetCount c2t2 = GetCount c2t ∧
    absFind hashId c2t2 1 = some 10 := by
  have hwf := (exec_empty_ok hashId_ok
    (show exec hashId emptyTable c2ops = some c2t by decide)).1
  have h := (c2_rehash_lossless hashId hashId_ok c2t hwf).1 8 c2t2 (by decide)
  exact ⟨by decide, h.2.1, h.1 1 10 (by decide)⟩

/-- C3: for every entry of the (spec-modelled) static prime table and every
32-bit input, the magic-number remainder computation — widened multiply,
shift by `32 + shift`, then `x - quotient * prime` — equals `x % prime`. -/
theorem c3_magic_rem_exact :
    ∀ i ∈ jitPrimeInfo, ∀ x : Nat, x < 2 ^ 32 →
      i.magicNumberRem x = x % i.prime := fun i hi x hx =>
  magicNumberRem_eq i (jitPrimeInfo_magicOK i hi) x hx

theorem c3_witness :
    (⟨13, 1321528399, 2⟩ : JitPrimeInfo) ∈ jitPrimeInfo ∧
    (4294967295 : Nat) < 2 ^ 32 ∧
    (⟨13, 1321528399, 2⟩ : JitPrimeInfo).magicNumberRem 4294967295
      = 4294967295 % 13 :=
  ⟨by decide, by decide,
    c3_magic_rem_exact ⟨13, 1321528399, 2⟩ (by decide) 4294967295 (by decide)⟩

/-- C4 counterexample: with count 5 the code computes the requested new size
in truncating unsigned arithmetic, `((5*3)/2*4)/3 = 9`, not `5×3/2×4/3 = 10`
as the claim states. -/
theorem c4_counterexample : growNewSize 5 = 9 ∧ growNewSize 5 ≠ 10 := by decide

def c4ops : List (Op Nat Nat) :=
  [.set 1 1 .overwrite, .set 2 2 .overwrite, .set 3 3 .overwrite,
   .set 4 4 .overwrite, .set 5 5 .overwrite]

def c4t1 : Table Nat Nat :=
  (exec hashId emptyTable [.set 1 1 .overwrite]).getD emptyTable

def c4t5 : Table Nat Nat := (exec hashId emptyTable c4ops).getD emptyTable

def c4t6 : Table Nat Nat :=
  (exec hashId emptyTable (c4ops ++ [.set 6 6 .overwrite])).getD emptyTable

/-- C4 (amended): the first insertion allocates the bucket array at the
minimum-allocation prime 7 (capacity threshold `7*3/4 = 5`); inserting keys
1..5 causes no further growth and `GetCount() = 5`; inserting key 6 triggers
growth with requested size computed from count 5 as `5*3/2*4/3 = 9` in
truncating unsigned arithmetic (not 10), rounded up to the smallest stored
prime `≥ 9` (13 in the modelled table); all 6 keys remain retrievable and
`GetCount() = 6`. -/
theorem c4_growth_scenario :
    exec hashId emptyTable [.set 1 1 .overwrite] = some c4t1 ∧
    c4t1.tableSizeInfo.prime = 7 ∧ c4t1.tableMax = 5 ∧
    exec hashId emptyTable c4ops = some c4t5 ∧
    c4t5.tableSizeInfo.prime = 7 ∧ GetCount c4t5 = 5 ∧
    exec hashId emptyTable (c4ops ++ [.set 6 6 .overwrite]) = some c4t6 ∧
    growNewSize (GetCount c4t5) = 9 ∧
    NextPrime 9 = some ⟨13, 1321528399, 2⟩ ∧
    c4t6.tableSizeInfo.prime = 13 ∧ GetCount c4t6 = 6 ∧
    (∀ k ∈ [1, 2, 3, 4, 5, 6], Lookup hashId c4t6 k (some 0) = (true, some k)) := by
  decide

/-- The keys named by the node-creating operations of a sequence, deduplicated:
the claim's "distinct keys ever inserted". -/
def insertedKeys : List (Op α β) → List α
  | [] => []
  | .set k _ _ :: ops => k :: insertedKeys ops
  | .lookupPointerOrAdd k _ :: ops => k :: insertedKeys ops
  | .emplace k _ :: ops => k :: insertedKeys ops
  | .remove _ :: ops => insertedKeys ops
  | .removeAll :: ops => insertedKeys ops
  | .reallocate _ :: ops => insertedKeys ops

def distinctInsertedCount (ops : List (Op α β)) : Nat :=
  (insertedKeys ops).dedup.length

/-- The claim's "number of keys removed": `Remove` calls in the sequence. -/
def removedCount : List (Op α β) → Nat
  | [] => 0
  | .remove _ :: ops => removedCount ops + 1
  | _ :: ops => removedCount ops

def c5ops : List (Op Nat Nat) :=
  [.set 0 10 .overwrite, .remove 0, .set 0 11 .overwrite]

def c5t : Table Nat Nat := (exec hashId emptyTable c5ops).getD emptyTable

/-- C5 counterexample: insert key 0, remove it, insert it again.  One distinct
key was ever inserted and one key was removed, so the claimed ledger gives
`1 - 1 = 0`, but `GetCount()` is 1. -/
theorem c5_counterexample :
    exec hashId emptyTable c5ops = some c5t ∧
    distinctInsertedCount c5ops = 1 ∧ removedCount c5ops = 1 ∧
    GetCount c5t = 1 ∧
    GetCount c5t ≠ distinctInsertedCount c5ops - removedCount c5ops := by
  decide

/-- C5 (amended): `GetCount()` equals the number of entries currently stored —
the distinct keys inserted since construction (or the last `RemoveAll`) and
not subsequently removed; stored keys are pairwise distinct; a key is stored
exactly when the specification-level map sends it somewhere; growth/rehash
does not change the count; and the count is zero after `RemoveAll`. -/
theorem c5_count_invariant {hash : α → Nat} (hh : HashOK hash)
    (ops : List (Op α β)) (t : Table α β)
    (hex : exec hash emptyTable ops = some t) :
    GetCount t = t.table.flatten.length ∧
    (t.table.flatten.map Prod.fst).Nodup ∧
    (∀ k, (specMapOf ops k).isSome ↔ k ∈ t.table.flatten.map Prod.fst) ∧
    (∀ n t', Reallocate hash t n = some t' → GetCount t' = GetCount t) ∧
    GetCount (RemoveAll t) = 0 := by
  obtain ⟨hwf, habs⟩ := exec_empty_ok hh hex
  refine ⟨hwf.2.2.2.2.1, hwf.2.2.2.1, ?_, ?_, rfl⟩
  · intro k
    rw [← habs k]
    constructor
    · intro hs
      obtain ⟨v, hv⟩ := Option.isSome_iff_exists.mp hs
      have := (absFind_eq_some_iff hwf k v).mp hv
      exact List.mem_map.mpr ⟨(k, v), this, rfl⟩
    · intro hk
      obtain ⟨n, hn, hnf⟩ := List.mem_map.mp hk
      obtain ⟨a, b⟩ := n
      cases hnf
      rw [(absFind_eq_some_iff hwf a b).mpr hn]
      rfl
  · intro n t' h
    obtain ⟨_, _, hcnt, _, _, _⟩ := reallocate_ok hh hwf h
    exact hcnt

def c5wops : List (Op Nat Nat) :=
  [.set 1 5 .overwrite, .set 2 6 .overwrite, .remove 1]

def c5wt : Table Nat Nat := (exec hashId emptyTable c5wops).getD emptyTable

theorem c5_witness :
    exec hashId emptyTable c5wops = some c5wt ∧
    GetCount c5wt = c5wt.table.flatten.length ∧
    GetCount (RemoveAll c5wt) = 0 := by
  have h := c5_count_invariant hashId_ok c5wops c5wt (by decide)
  exact ⟨by decide, h.1, h.2.2.2.2⟩

/-- C6 counterexample: on a freshly constructed table that has never
allocated a bucket array, `Remove` reads `m_table[GetIndexForKey(k)]` with no
`prime == 0` guard — a null bucket-array dereference, modelled as the failing
(`none`) bucket access.  So `Remove` on the fresh table is not the claimed
error-free `false` return. -/
theorem c6_counterexample :
    Remove hashId (emptyTable : Table Nat Nat) 0 = none := by decide

/-- C6 (amended): for every well-formed table whose bucket array is allocated
(`prime ≠ 0`) and every key absent from it, `Remove` returns `false` and
leaves the table — including `GetCount()` — untouched, with no error.  On a
never-allocated table the unguarded bucket-array read is undefined
behaviour. -/
theorem c6_remove_absent {hash : α → Nat} (hh : HashOK hash)
    {t : Table α β} (hwf : WF hash t) (hp : t.tableSizeInfo.prime ≠ 0)
    (k : α) (habs : absFind hash t k = none) :
    Remove hash t k = some (t, false) := by
  have hidx : GetIndexForKey t.tableSizeInfo hash k < t.table.length :=
    wf_index_lt hh hwf hp k
  have hb : t.table[GetIndexForKey t.tableSizeInfo hash k]?
      = some (t.table.getD (GetIndexForKey t.tableSizeInfo hash k) []) := by
    rw [List.getD_eq_getElem?_getD, List.getElem?_eq_getElem hidx]
    rfl
  have hfn : FindNode hash t k = none := Option.map_eq_none'.mp habs
  have hfl : findLoop k (t.table.getD (GetIndexForKey t.tableSizeInfo hash k) [])
      = none := by
    rw [← findNode_eq_findLoop hp]
    exact hfn
  have hrl := (removeLoop_eq_none k _).mpr hfl
  simp only [Remove, hb, hrl]

def c6t : Table Nat Nat :=
  (exec hashId emptyTable [.set 1 1 .overwrite]).getD emptyTable

theorem c6_witness :
    c6t.tableSizeInfo.prime ≠ 0 ∧ absFind hashId c6t 2 = none ∧
    Remove hashId c6t 2 = some (c6t, false) :=
  ⟨by decide, by decide,
    c6_remove_absent hashId_ok
      ((exec_empty_ok hashId_ok (show exec hashId emptyTable
        [.set 1 1 .overwrite] = some c6t by decide)).1)
      (by decide) 2 (by decide)⟩

def c7t : Table Nat Nat :=
  (exec hashId emptyTable [.set 1 1 .overwrite]).getD emptyTable

/-- C7 counterexample: `RemoveAll` frees the bucket array and resets the size
descriptor to the default: the bucket-array length drops from 7 to 0, and 0
is not a stored prime — so the length is neither always drawn from the prime
table nor monotone across `RemoveAll`. -/
theorem c7_counterexample :
    c7t.table.length = 7 ∧ (RemoveAll c7t).table.length = 0 ∧
    (RemoveAll c7t).table.length < c7t.table.length ∧
    (RemoveAll c7t).table.length ∉ jitPrimeInfo.map JitPrimeInfo.prime := by
  decide

/-- C7 (amended): at every state reachable from a fresh table, the
bucket-array length is either 0 (never allocated, or reset by `RemoveAll`) or
a value drawn from the static prime table; and across every operation other
than `RemoveAll` (which resets to the unallocated state) and explicit
`Reallocate` (whose requested size chooses the new prime directly), the
bucket-array length never decreases. -/
theorem c7_size_primes_mono (hash : α → Nat) (hh : HashOK hash) :
    (∀ (ops : List (Op α β)) (t : Table α β),
      exec hash emptyTable ops = some t →
      t.table.length = 0 ∨ t.table.length ∈ jitPrimeInfo.map JitPrimeInfo.prime) ∧
    (∀ (t t' : Table α β) (op : Op α β), WF hash t →
      (∀ n, op ≠ Op.reallocate n) → op ≠ Op.removeAll →
      step hash t op = some t' → t.table.length ≤ t'.table.length) := by
  constructor
  · intro ops t h
    obtain ⟨hwf, _⟩ := exec_empty_ok hh h
    rcases hwf.2.1 with hd | hm
    · left
      rw [hwf.1, hd]
    · right
      rw [hwf.1]
      exact List.mem_map.mpr ⟨_, hm, rfl⟩
  · intro t t' op hwf hra hrm h
    exact step_mono hh hwf h hra hrm

theorem c7_witness :
    exec hashId emptyTable [.set 1 1 .overwrite] = some c7t ∧
    (c7t.table.length = 0 ∨
      c7t.table.length ∈ jitPrimeInfo.map JitPrimeInfo.prime) :=
  ⟨by decide,
    (c7_size_primes_mono (β := Nat) hashId hashId_ok).1
      [.set 1 1 .overwrite] c7t (by decide)⟩

/-- C8: `Set` runs the growth check first (giving `t₁`), then: if the key is
absent a new node is pushed at the head of its bucket chain and `false` is
returned with no assertion; if the key is present and overwrite is allowed,
the stored value is replaced and `true` is returned; if the key is present
and overwrite is disallowed the debug assertion `kind == Overwrite` fails
(`assertOk = false`) — a programmer-error assertion, not a recoverable
error (release builds overwrite and return `true`). -/
theorem c8_set_contract {hash : α → Nat} (hh : HashOK hash)
    {t t₁ : Table α β} (hwf : WF hash t) (hcg : CheckGrowth hash t = some t₁)
    (k : α) (v : β) :
    (absFind hash t k = none → ∀ kind,
      Set hash t k v kind = some ⟨{ t₁ with
        table := t₁.table.set (GetIndexForKey t₁.tableSizeInfo hash k)
          ((k, v) :: t₁.table.getD (GetIndexForKey t₁.tableSizeInfo hash k) [])
        tableCount := t₁.tableCount + 1 }, false, true⟩) ∧
    (∀ w, absFind hash t k = some w →
      ∃ r, Set hash t k v SetKind.overwrite = some r ∧ r.overwritten = true ∧
        r.assertOk = true ∧ absFind hash r.table k = some v) ∧
    (∀ w, absFind hash t k = some w →
      ∃ r, Set hash t k v SetKind.noOverwrite = some r ∧ r.overwritten = true ∧
        r.assertOk = false) := by
  obtain ⟨hwf1, _, _, hmem1, habs1⟩ := checkGrowth_ok hh hwf hcg
  have hp1 : t₁.tableSizeInfo.prime ≠ 0 := prime_ne_zero_of_mem hmem1
  refine ⟨?_, ?_, ?_⟩
  · intro habs kind
    have hfn : FindNode hash t₁ k = none := by
      apply Option.map_eq_none'.mp
      show absFind hash t₁ k = none
      rw [habs1 k]
      exact habs
    have hfl : findLoop k
        (t₁.table.getD (GetIndexForKey t₁.tableSizeInfo hash k) []) = none := by
      rw [← findNode_eq_findLoop hp1]
      exact hfn
    simp only [Set, hcg, hfl]
  · intro w habs
    obtain ⟨n, hfn, hnv⟩ := Option.map_eq_some'.mp
      (show absFind hash t₁ k = some w by rw [habs1 k]; exact habs)
    have hfl : findLoop k
        (t₁.table.getD (GetIndexForKey t₁.tableSizeInfo hash k) []) = some n := by
      rw [← findNode_eq_findLoop hp1]
      exact hfn
    have hset : Set hash t k v SetKind.overwrite = some ⟨{ t₁ with
        table := t₁.table.set (GetIndexForKey t₁.tableSizeInfo hash k)
          (setLoop k v (t₁.table.getD (GetIndexForKey t₁.tableSizeInfo hash k) [])) },
        true, decide (SetKind.overwrite = SetKind.overwrite)⟩ := by
      simp only [Set, hcg, hfl]
    refine ⟨_, hset, rfl, rfl, ?_⟩
    have hsurg := overwrite_surgery hh hwf1 hmem1 k v rfl hfl rfl
    have h2 := hsurg.2.2 k
    rw [if_pos rfl] at h2
    exact h2
  · intro w habs
    obtain ⟨n, hfn, hnv⟩ := Option.map_eq_some'.mp
      (show absFind hash t₁ k = some w by rw [habs1 k]; exact habs)
    have hfl : findLoop k
        (t₁.table.getD (GetIndexForKey t₁.tableSizeInfo hash k) []) = some n := by
      rw [← findNode_eq_findLoop hp1]
      exact hfn
    have hset : Set hash t k v SetKind.noOverwrite = some ⟨{ t₁ with
        table := t₁.table.set (GetIndexForKey t₁.tableSizeInfo hash k)
          (setLoop k v (t₁.table.getD (GetIndexForKey t₁.tableSizeInfo hash k) [])) },
        true, decide (SetKind.noOverwrite = SetKind.overwrite)⟩ := by
      simp only [Set, hcg, hfl]
    exact ⟨_, hset, rfl, rfl⟩

def c8t : Table Nat Nat :=
  (exec hashId emptyTable [.set 1 10 .overwrite]).getD emptyTable

theorem c8_witness :
    CheckGrowth hashId c8t = some c8t ∧ absFind hashId c8t 1 = some 10 ∧
    (∃ r, Set hashId c8t 1 99 SetKind.noOverwrite = some r ∧
      r.overwritten = true ∧ r.assertOk = false) :=
  ⟨by decide, by decide,
    (c8_set_contract hashId_ok
      ((exec_empty_ok hashId_ok (show exec hashId emptyTable
        [.set 1 10 .overwrite] = some c8t by decide)).1)
      (show CheckGrowth hashId c8t = some c8t by decide) 1 99).2.2 10
      (by decide)⟩

/-- C9: for every reachable table, iterating from the begin cursor visits
exactly the stored entries: the visited node sequence equals the
concatenation of the bucket chains, its length is `GetCount()`, it has no
duplicate entries and no duplicate keys (so the key, value and key/value
projections each visit every stored entry exactly once), and an empty table
yields zero iterations. -/
theorem c9_iteration {hash : α → Nat} (hh : HashOK hash)
    (ops : List (Op α β)) (t : Table α β)
    (hex : exec hash emptyTable ops = some t) :
    iterTrace (GetCount t + 1) (beginIter t) = t.table.flatten ∧
    (iterTrace (GetCount t + 1) (beginIter t)).length = GetCount t ∧
    (iterTrace (GetCount t + 1) (beginIter t)).Nodup ∧
    ((iterTrace (GetCount t + 1) (beginIter t)).map Prod.fst).Nodup ∧
    (GetCount t = 0 → iterTrace (GetCount t + 1) (beginIter t) = []) := by
  obtain ⟨hwf, _⟩ := exec_empty_ok hh hex
  have htr : iterTrace (GetCount t + 1) (beginIter t) = t.table.flatten :=
    iterTrace_flatten hwf
  refine ⟨htr, ?_, ?_, ?_, ?_⟩
  · rw [htr]
    exact hwf.2.2.2.2.1.symm
  · rw [htr]
    exact List.Nodup.of_map Prod.fst hwf.2.2.2.1
  · rw [htr]
    exact hwf.2.2.2.1
  · intro h0
    rw [htr]
    apply List.length_eq_zero.mp
    rw [← hwf.2.2.2.2.1]
    exact h0

def c9ops : List (Op Nat Nat) :=
  [.set 1 1 .overwrite, .set 2 2 .overwrite, .set 3 3 .overwrite]

def c9t : Table Nat Nat := (exec hashId emptyTable c9ops).getD emptyTable

theorem c9_witness :
    exec hashId emptyTable c9ops = some c9t ∧
    iterTrace (GetCount c9t + 1) (beginIter c9t) = c9t.table.flatten ∧
    (iterTrace (GetCount c9t + 1) (beginIter c9t)).length = GetCount c9t := by
  have h := c9_iteration hashId_ok c9ops c9t (by decide)
  exact ⟨by decide, h.1, h.2.1⟩

/-- C10: `Lookup` on an absent key returns `false` and leaves the caller's
out-cell untouched; with a null `pVal` nothing is written whether or not the
key is present.  (`Lookup` is a `const` member: the model makes it a pure
function of the table, so the table state is unchanged by construction.) -/
theorem c10_lookup_frame (hash : α → Nat) (t : Table α β) (k : α) :
    (∀ pv, FindNode hash t k = none → Lookup hash t k pv = (false, pv)) ∧
    (Lookup hash t k none).2 = none := by
  constructor
  · intro pv h
    simp only [Lookup, h]
  · unfold Lookup
    cases FindNode hash t k <;> rfl

theorem c10_witness :
    FindNode hashId (emptyTable : Table Nat Nat) 0 = none ∧
    Lookup hashId (emptyTable : Table Nat Nat) 0 (some 5) = (false, some 5) :=
  ⟨by decide,
    (c10_lookup_frame hashId emptyTable 0).1 (some 5) (by decide)⟩

end JitHashTable
